import Mathlib

/-!
Verification development for the `code-atlas` Python project analyzer
(`code_analyzer.py`).  The analyzer walks a project directory (respecting
`.gitignore`-style rules), parses each Python file into an AST, extracts
functions / classes / imports, resolves calls heuristically, and builds a
folder/file/module/function knowledge graph.

This file shallowly embeds the analyzer: Python dicts become association
lists preserving insertion order, Python sets become lists with
insert-if-new.  Paths are modeled as the relative, forward-slash
strings the analyzer itself works with; `str.split` / `str.join` are
modeled by the character-level `pySplit` / `pyJoin` below.
-/

namespace CodeAtlas

/-! ## Python string primitives: split / join on a separator character -/

/-- Python `s.split(sep)` on a character list: always returns a non-empty
list of separator-free chunks. -/
def pySplitAux (sep : Char) : List Char → List (List Char)
  | [] => [[]]
  | c :: cs =>
    match pySplitAux sep cs with
    | [] => [[]]
    | h :: t => if c = sep then [] :: h :: t else (c :: h) :: t

/-- Python `s.split(sep)` for a single-character separator. -/
def pySplit (s : String) (sep : Char) : List String :=
  (pySplitAux sep s.toList).map (fun l => String.mk l)

/-- Python `sep.join(parts)` at the character level. -/
def pyJoinChars (sep : Char) : List (List Char) → List Char
  | [] => []
  | [l] => l
  | l :: l' :: ls => l ++ sep :: pyJoinChars sep (l' :: ls)

/-- Python `sep.join(parts)` for a single-character separator. -/
def pyJoin (sep : Char) (parts : List String) : String :=
  String.mk (pyJoinChars sep (parts.map String.toList))

/-- Truthiness of an optional string, as Python evaluates `if x:` where
`x` is `None` or a `str`. -/
def optTruthy : Option String → Bool
  | none => false
  | some s => s ≠ ""

/-- Does the first list start with the second? -/
def listStartsWith : List Char → List Char → Bool
  | _, [] => true
  | [], _ :: _ => false
  | c :: cs, p :: ps => c = p && listStartsWith cs ps

/-- Python `s.startswith(pre)`. -/
def pyStartsWith (s pre : String) : Bool :=
  listStartsWith s.toList pre.toList

/-- Python `s.endswith(suf)`. -/
def pyEndsWith (s suf : String) : Bool :=
  listStartsWith s.toList.reverse suf.toList.reverse

/-- Python `s[n:]`. -/
def pyDrop (s : String) (n : Nat) : String :=
  String.mk (s.toList.drop n)

/-- Python `s[:-n]` (for `n ≤ len(s)`). -/
def pyDropRight (s : String) (n : Nat) : String :=
  String.mk ((s.toList.reverse.drop n).reverse)

/-- Python's `str.strip()` whitespace set. -/
def pySpace (c : Char) : Bool :=
  c = ' ' || c = '\t' || c = '\n' || c = '\r' || c = '\x0b' || c = '\x0c'

/-- Python `s.strip()`. -/
def pyStrip (s : String) : String :=
  String.mk (((s.toList.dropWhile pySpace).reverse.dropWhile pySpace).reverse)

/-- Python `s.replace(a, b)` for single-character `a`, `b`. -/
def pyReplaceChar (s : String) (a b : Char) : String :=
  String.mk (s.toList.map (fun c => if c = a then b else c))

/-- Python `s.split(sep)` for a multi-character separator, fueled to keep
the recursion structural (the fuel is always sufficient at
`length + 1`). -/
def pySplitOnAux (sep : List Char) : Nat → List Char → List Char → List (List Char)
  | 0, rest, cur => [cur.reverse ++ rest]
  | _ + 1, [], cur => [cur.reverse]
  | fuel + 1, c :: cs, cur =>
    if sep ≠ [] && listStartsWith (c :: cs) sep then
      cur.reverse :: pySplitOnAux sep fuel (cs.drop (sep.length - 1)) []
    else pySplitOnAux sep fuel cs (c :: cur)

def pySplitOn (s sep : String) : List String :=
  (pySplitOnAux sep.toList (s.toList.length + 1) s.toList []).map (fun l => String.mk l)

/-! ## `fnmatch` shell-glob matching (Python stdlib semantics)

`fnmatch.fnmatch` translates the pattern (`*` any run, `?` any single
character, `[...]` character class with optional leading `!` negation and
`a-b` ranges, unterminated `[` literal) and matches the whole name.
Mirroring the stdlib, we first compile the pattern to tokens, then match.
-/

inductive GlobTok where
  | star : GlobTok
  | qmark : GlobTok
  | lit (c : Char) : GlobTok
  | cls (neg : Bool) (items : List (Char × Char)) : GlobTok
deriving DecidableEq, Repr

/-- Parse the body of a `[...]` class: returns (range items, number of
characters consumed including the closing `]`); singleton members are
`(c, c)` ranges.  `none` when the class never closes. -/
def classItems : List Char → List (Char × Char) → Option (List (Char × Char) × Nat)
  | [], _ => none
  | ']' :: _, acc => some (acc.reverse, 1)
  | a :: '-' :: b :: rest, acc =>
    if b = ']' then some ((('-', '-') :: (a, a) :: acc).reverse, 3)
    else (classItems rest ((a, b) :: acc)).map (fun p => (p.1, p.2 + 3))
  | a :: rest, acc => (classItems rest ((a, a) :: acc)).map (fun p => (p.1, p.2 + 1))

/-- Scan a character class right after the opening `[`: a leading `!`
negates; a `]` directly after `[` or `[!` is a literal member.  Returns
(negated, items, chars consumed). -/
def scanClass (cs : List Char) : Option (Bool × List (Char × Char) × Nat) :=
  match cs with
  | '!' :: ']' :: rest => (classItems rest [(']', ']')]).map (fun p => (true, p.1, p.2 + 2))
  | '!' :: rest => (classItems rest []).map (fun p => (true, p.1, p.2 + 1))
  | ']' :: rest => (classItems rest [(']', ']')]).map (fun p => (false, p.1, p.2 + 1))
  | rest => (classItems rest []).map (fun p => (false, p.1, p.2))

/-- Compile a glob pattern into a token list (the analogue of
`fnmatch.translate`).  Fueled to keep the recursion structural; each step
consumes at least one pattern character, so `length` fuel suffices. -/
def compilePatAux : Nat → List Char → List GlobTok
  | 0, _ => []
  | _ + 1, [] => []
  | fuel + 1, '*' :: ps => .star :: compilePatAux fuel ps
  | fuel + 1, '?' :: ps => .qmark :: compilePatAux fuel ps
  | fuel + 1, '[' :: ps =>
    match scanClass ps with
    | some (neg, items, n) => .cls neg items :: compilePatAux fuel (ps.drop n)
    | none => .lit '[' :: compilePatAux fuel ps
  | fuel + 1, c :: ps => .lit c :: compilePatAux fuel ps

def compilePat (p : List Char) : List GlobTok :=
  compilePatAux p.length p

def matchItems (items : List (Char × Char)) (c : Char) : Bool :=
  items.any (fun p => p.1 ≤ c && c ≤ p.2)

/-- Match a compiled glob pattern against a whole character list.  Fueled
(each step shortens pattern or string, so `|p| + |s| + 1` suffices). -/
def globMatchAux : Nat → List GlobTok → List Char → Bool
  | 0, _, _ => false
  | _ + 1, [], s => s.isEmpty
  | fuel + 1, .star :: ps, s =>
    globMatchAux fuel ps s ||
      (match s with
       | [] => false
       | _ :: cs => globMatchAux fuel (.star :: ps) cs)
  | fuel + 1, .qmark :: ps, s =>
    match s with
    | [] => false
    | _ :: cs => globMatchAux fuel ps cs
  | fuel + 1, .cls neg items :: ps, s =>
    match s with
    | [] => false
    | c :: cs => (matchItems items c != neg) && globMatchAux fuel ps cs
  | fuel + 1, .lit a :: ps, s =>
    match s with
    | [] => false
    | c :: cs => a == c && globMatchAux fuel ps cs

def globMatch (p : List GlobTok) (s : List Char) : Bool :=
  globMatchAux (p.length + s.length + 1) p s

/-- `fnmatch.fnmatch(name, pattern)`. -/
def fnmatch (nm pat : String) : Bool :=
  globMatch (compilePat pat.toList) nm.toList

/-! ## `GitIgnoreParser`

A rule is a `(pattern, is_negation, is_directory)` triple as stored by
`GitIgnoreParser._load_gitignore_files`.  We model the project-root
ignore file (for nested ignore files the source only prefixes the pattern
with the file's directory, which the claims do not exercise). -/

structure Rule where
  pattern : String
  is_negation : Bool
  is_directory : Bool
deriving DecidableEq, Repr

/-- One line of a `.gitignore` file, parsed as in
`GitIgnoreParser._load_gitignore_files`: strip whitespace, skip blanks and
`#` comments, a leading `!` marks negation, a trailing `/` marks a
directory-only rule. -/
def parseGitignoreLine (line : String) : Option Rule :=
  let line := pyStrip line
  if line = "" || pyStartsWith line "#" then none
  else
    let is_negation := pyStartsWith line "!"
    let pattern := if is_negation then pyDrop line 1 else line
    let is_directory := pyEndsWith pattern "/"
    let pattern := if is_directory then pyDropRight pattern 1 else pattern
    some ⟨pattern, is_negation, is_directory⟩

def parseGitignoreLines (lines : List String) : List Rule :=
  lines.filterMap parseGitignoreLine

/-- `GitIgnoreParser._matches_pattern`.  `path_parts` is the
project-relative path already split at `/` (the source splits
`str(path.relative_to(root))`). -/
def matchesPattern (path_parts : List String) (pattern : String) (is_directory : Bool) : Bool :=
  let pattern := String.mk (pattern.toList.dropWhile (fun c => c = '/'))
  if is_directory then
    path_parts.any (fun part => fnmatch part pattern)
  else if pattern.toList.contains '/' then
    let pattern_parts := pySplit pattern '/'
    (List.range (path_parts.length + 1 - pattern_parts.length)).any (fun i =>
      fnmatch (pyJoin '/' ((path_parts.drop i).take pattern_parts.length)) pattern)
  else
    fnmatch (path_parts.getLastD "") pattern ||
      (path_parts.dropLast).any (fun part => fnmatch part pattern)

/-- One iteration of the `GitIgnoreParser.should_ignore` loop over
`(matches_ignore, matches_negation)`. -/
def ruleStep (path_parts : List String) (is_dir : Bool) (acc : Bool × Bool) (r : Rule) :
    Bool × Bool :=
  if r.is_directory && !is_dir then acc
  else if matchesPattern path_parts r.pattern r.is_directory then
    if r.is_negation then (acc.1, true) else (true, acc.2)
  else acc

/-- `GitIgnoreParser.should_ignore`: evaluate every rule (directory rules
are skipped for non-directories); any matching negation rule wins over
any matching ignore rule. -/
def shouldIgnore (rules : List Rule) (path_parts : List String) (is_dir : Bool) : Bool :=
  let flags := rules.foldl (ruleStep path_parts is_dir) (false, false)
  if flags.2 then false else flags.1

/-! ## Directory walker (`CodeAnalyzer.analyze` / `walk_directory`) -/

/-- `CodeAnalyzer._should_skip_path`: gitignore rules plus built-in
exclusions (hidden names except `.gitignore`, well-known cache dirs). -/
def shouldSkipPath (rules : List Rule) (path_parts : List String) (is_dir : Bool) : Bool :=
  shouldIgnore rules path_parts is_dir ||
    path_parts.any (fun part =>
      (pyStartsWith part "." && part ≠ ".gitignore") ||
        part ∈ ["__pycache__", "node_modules", ".pytest_cache", ".mypy_cache"])

/-- A filesystem entry: a named file or a named directory with children. -/
inductive FSEntry where
  | file (nm : String) : FSEntry
  | dir (nm : String) (children : List FSEntry) : FSEntry

mutual
/-- `walk_directory`: skip an entry (file or directory) when
`_should_skip_path` flags it; recurse into surviving directories; collect
surviving files (as segment lists relative to the root). -/
def walkEntry (rules : List Rule) (pref : List String) : FSEntry → List (List String)
  | .file nm =>
    let p := pref ++ [nm]
    if shouldSkipPath rules p false then [] else [p]
  | .dir nm children =>
    let p := pref ++ [nm]
    if shouldSkipPath rules p true then [] else walkEntries rules p children

def walkEntries (rules : List Rule) (pref : List String) : List FSEntry → List (List String)
  | [] => []
  | e :: es => walkEntry rules pref e ++ walkEntries rules pref es
end

/-- Walk a whole project: the root's children, starting from an empty
relative prefix. -/
def walkProject (rules : List Rule) (root : List FSEntry) : List (List String) :=
  walkEntries rules [] root

/-! ## Ordered dictionaries and sets

Python dicts preserve insertion order and are modeled as association
lists: a fresh key is appended at the end, an update keeps the position.
Python sets are modeled as lists with insert-if-new. -/

def lookupA {α : Type} (m : List (String × α)) (k : String) : Option α :=
  match m with
  | [] => none
  | e :: es => if e.1 = k then some e.2 else lookupA es k

def setKey {α : Type} (m : List (String × α)) (k : String) (v : α) : List (String × α) :=
  if (lookupA m k).isSome then m.map (fun e => if e.1 = k then (k, v) else e)
  else m ++ [(k, v)]

def modifyKey {α : Type} (m : List (String × α)) (k : String) (f : α → α) : List (String × α) :=
  m.map (fun e => if e.1 = k then (e.1, f e.2) else e)

def insertNew (x : String) (l : List String) : List String :=
  if x ∈ l then l else l ++ [x]

/-- `defaultdict(list)` append: `d[k].append(v)`. -/
def appendAt {α : Type} (m : List (String × List α)) (k : String) (v : α) : List (String × List α) :=
  if (lookupA m k).isSome then modifyKey m k (fun l => l ++ [v]) else m ++ [(k, [v])]

/-- `defaultdict(set)` add: `d[k].add(v)`. -/
def addToSetMap (m : List (String × List String)) (k v : String) : List (String × List String) :=
  if (lookupA m k).isSome then modifyKey m k (insertNew v) else m ++ [(k, [v])]

/-! ## Python AST model

The analyzer's traversal only distinguishes the node kinds below; every
other statement/expression kind falls through `generic_visit` with no
relevant children for the recorded data. -/

inductive PyExpr where
  | name (id : String) : PyExpr
  | attr (value : PyExpr) (attrName : String) : PyExpr
  | call (func : PyExpr) (args : List PyExpr) : PyExpr
  | strConst (s : String) : PyExpr
  | numConst (n : Int) : PyExpr

/-- `ast.arg`: a parameter name with an optional annotation expression. -/
structure PyArg where
  arg : String
  ann : Option PyExpr

/-- `ast.arguments` with all parameter groups. -/
structure PyArgs where
  posonlyargs : List PyArg
  args : List PyArg
  vararg : Option PyArg
  kwonlyargs : List PyArg
  kw_defaults : List (Option PyExpr)
  kwarg : Option PyArg
  defaults : List PyExpr

inductive Stmt where
  | importStmt (lineno : Nat) (names : List (String × Option String)) : Stmt
  | importFrom (lineno : Nat) (module : Option String) (names : List String) (level : Nat) : Stmt
  | classDef (lineno : Nat) (nm : String) (bases : List PyExpr) (body : List Stmt) : Stmt
  | funcDef (lineno : Nat) (nm : String) (args : PyArgs) (body : List Stmt)
      (decorator_list : List PyExpr) (returns : Option PyExpr) : Stmt
  | exprStmt (e : PyExpr) : Stmt

/-- The repository's `unparse_ast` fallback renderer (the `ast.unparse`
compatibility shim defined at the top of `code_analyzer.py`). -/
def unparseAst : PyExpr → String
  | .name id => id
  | .strConst s => s
  | .numConst n => toString n
  | .attr v a => unparseAst v ++ "." ++ a
  | .call f _ => unparseAst f ++ "()"

/-! ## Record types (`FunctionInfo`, `ClassInfo`, import details,
hierarchy records) -/

structure FunctionInfo where
  name : String
  file_path : String
  line_number : Nat
  parameters : List String
  return_ann : Option String
  docstring : Option String
  calls : List String
  called_by : List String
  decorators : List String
  is_method : Bool
  class_name : Option String
deriving DecidableEq, Repr

structure ClassInfo where
  name : String
  file_path : String
  line_number : Nat
  methods : List String
  base_classes : List String
deriving DecidableEq, Repr

/-- One entry of `import_details[file]`.  `fromModule` is the dict's
`"from"` key; `resolved_module` is `none` both when the key is absent
(plain `import` statements) and when resolution returned `None`, matching
how `get_graph_data` reads it back with `.get`. -/
structure ImportDetail where
  fromModule : String
  resolved_module : Option String
  importsList : List String
  is_relative : Bool
  line : Nat
deriving DecidableEq, Repr

structure FolderRec where
  path : String
  files : List String
  subfolders : List String
deriving DecidableEq, Repr

structure FileRec where
  path : String
  name : String
  extension : String
  module : Option String
  folder : String
  functions : List String
  is_python : Bool
deriving DecidableEq, Repr

structure ModuleRec where
  name : String
  file : String
  folder : String
  functions : List String
  classes : List String
deriving DecidableEq, Repr

/-- The mutable maps owned by `CodeAnalyzer`. -/
structure Analyzer where
  functions : List (String × FunctionInfo)
  classes : List (String × ClassInfo)
  imports_map : List (String × List String)
  import_details : List (String × List ImportDetail)
  file_functions : List (String × List String)
  folders : List (String × FolderRec)
  files : List (String × FileRec)
  modules : List (String × ModuleRec)
deriving DecidableEq, Repr

def initAnalyzer : Analyzer := ⟨[], [], [], [], [], [], [], []⟩

/-! ## Path and name helpers -/

/-- `CodeAnalyzer._get_full_function_name`. -/
def getFullFunctionName (name : String) (class_name : Option String) (file_path : String) : String :=
  match class_name with
  | some c => file_path ++ "::" ++ c ++ "." ++ name
  | none => file_path ++ "::" ++ name

/-- `CodeAnalyzer._get_module_name`: path separators become dots, a
trailing `.py` and a trailing `.__init__` are stripped. -/
def getModuleName (file_path : String) : String :=
  let module_path := pyReplaceChar (pyReplaceChar file_path '\\' '/') '/' '.'
  let module_path := if pyEndsWith module_path ".py" then pyDropRight module_path 3 else module_path
  if pyEndsWith module_path ".__init__" then pyDropRight module_path 9 else module_path

/-- `CodeAnalyzer._get_folder_path` for the project-relative,
forward-slash paths the analyzer produces: `Path(p).parent`, with the
top level rendered as `""` instead of `"."`. -/
def getFolderPath (file_path : String) : String :=
  let parts := pySplit (pyReplaceChar file_path '\\' '/') '/'
  if parts.length ≤ 1 then "" else pyJoin '/' parts.dropLast

/-- `Path(p).name`: the final path segment. -/
def pathName (file_path : String) : String :=
  (pySplit file_path '/').getLastD ""

/-- `Path(p).suffix`: the extension of the final segment, empty for
dotless names, hidden files like `.gitignore`, and names ending in a
dot. -/
def pathSuffix (file_path : String) : String :=
  let nm := (pathName file_path).toList
  if nm.contains '.' then
    let ext := (nm.reverse.takeWhile (fun c => c ≠ '.')).reverse
    let i := nm.length - ext.length - 1
    if 0 < i && i < nm.length - 1 then String.mk ('.' :: ext) else ""
  else ""

/-- `CodeAnalyzer._resolve_relative_import`: resolve a dotted relative
specifier like `".models"` against the importing file's module name. -/
def resolveRelativeImport (import_module : String) (current_file : String) : Option String :=
  if import_module = "" || !pyStartsWith import_module "." then some import_module
  else
    let current_module := getModuleName current_file
    let dots := (import_module.toList.takeWhile (fun c => c = '.')).length
    let module_part := String.mk (import_module.toList.dropWhile (fun c => c = '.'))
    if module_part = "" then
      -- just dots: the ancestor package itself
      let parts := pySplit current_module '.'
      if dots ≤ parts.length then
        some (if dots > 1 then pyJoin '.' (parts.take (parts.length - (dots - 1)))
              else pyJoin '.' parts.dropLast)
      else none
    else
      let parts := pySplit current_module '.'
      if dots = 1 then
        let parent := if parts.length > 1 then pyJoin '.' parts.dropLast else ""
        some (if parent ≠ "" then parent ++ "." ++ module_part else module_part)
      else
        if dots - 1 ≤ parts.length then
          let parent := pyJoin '.' (parts.take (parts.length - (dots - 1)))
          some (parent ++ "." ++ module_part)
        else none

/-! ## `CodeAnalyzer._register_file_in_hierarchy` -/

def mkFolder (p : String) : FolderRec := ⟨p, [], []⟩

/-- `'/'.join(parts[:i])` — the `i`-th ancestor prefix, the root `""`
for `i = 0`. -/
def ancestorAt (parts : List String) (i : Nat) : String :=
  if i > 0 then pyJoin '/' (parts.take i) else ""

/-- One step `i` of the parent-folder synthesis loop: ensure
`'/'.join(parts[:i])` exists (the root `""` for `i = 0`) and record
`'/'.join(parts[:i+1])` as its subfolder while `i < len(parts)`. -/
def hierarchyStep (parts : List String) (fs : List (String × FolderRec)) (i : Nat) :
    List (String × FolderRec) :=
  let parent_folder := ancestorAt parts i
  let fs := if (lookupA fs parent_folder).isSome then fs
            else fs ++ [(parent_folder, mkFolder parent_folder)]
  if i < parts.length then
    let child_folder := pyJoin '/' (parts.take (i + 1))
    modifyKey fs parent_folder (fun fr => { fr with subfolders := insertNew child_folder fr.subfolders })
  else fs

/-- The parent folder as `get_graph_data` derives it: strip the last path
segment (`str(Path(*parts[:-1]))`, `""` for a single segment). -/
def parentFolder (p : String) : String :=
  let parent_parts := pySplit p '/'
  if parent_parts.length > 1 then pyJoin '/' parent_parts.dropLast else ""

/-- Modelled from the spec: the "longest strict path-prefix directory" of
a file path — all `/`-segments but the last, `""` when there is none. -/
def dirnameSpec (p : String) : String :=
  if (pySplit p '/').length ≤ 1 then "" else pyJoin '/' (pySplit p '/').dropLast

/-- The `FileRec` created when a file is first registered. -/
def mkFileRec (relative_path : String) : FileRec :=
  let file_ext := pathSuffix relative_path
  ⟨relative_path, pathName relative_path, file_ext,
    (if file_ext = ".py" then some (getModuleName relative_path) else none),
    getFolderPath relative_path, [], file_ext = ".py"⟩

def registerFileInHierarchy (az : Analyzer) (relative_path : String) : Analyzer :=
  let folder_path := getFolderPath relative_path
  let file_ext := pathSuffix relative_path
  let module_name := if file_ext = ".py" then some (getModuleName relative_path) else none
  -- register folder
  let az := if (lookupA az.folders folder_path).isSome then az
            else { az with folders := az.folders ++ [(folder_path, mkFolder folder_path)] }
  -- register file (all file types) and list it in its folder
  let az :=
    if (lookupA az.files relative_path).isSome then az
    else
      { az with
        files := az.files ++ [(relative_path, mkFileRec relative_path)],
        folders := (modifyKey az.folders folder_path
          (fun fr => { fr with files := fr.files ++ [relative_path] })) }
  -- register module (Python files with a truthy module name only)
  let az :=
    match module_name with
    | some m =>
      if m ≠ "" && !(lookupA az.modules m).isSome then
        { az with modules := az.modules ++ [(m, ⟨m, relative_path, folder_path, [], []⟩)] }
      else az
    | none => az
  -- synthesize the parent-folder chain
  if folder_path ≠ "" then
    let parts := pySplit folder_path '/'
    { az with folders := (List.range (parts.length + 1)).foldl (hierarchyStep parts) az.folders }
  else az

/-! ## Per-function extraction helpers -/

/-- `CodeAnalyzer._extract_docstring`: the leading statement must be a
bare string-literal expression. -/
def extractDocstring (body : List Stmt) : Option String :=
  match body with
  | .exprStmt (.strConst s) :: _ => some s
  | _ => none

def renderParam (a : PyArg) : String :=
  match a.ann with
  | some t => a.arg ++ ": " ++ unparseAst t
  | none => a.arg

/-- `CodeAnalyzer._extract_parameters`: iterates `node.args.args` only —
plain positional-or-keyword parameters. -/
def extractParameters (args : PyArgs) : List String :=
  args.args.foldl (fun params a => params ++ [renderParam a]) []

/-- `CodeAnalyzer._extract_decorators`: bare names, attribute chains and
call expressions (keeping only the callee); anything else is dropped. -/
def extractDecorators (decorator_list : List PyExpr) : List String :=
  decorator_list.foldl
    (fun ds d =>
      match d with
      | .name id => ds ++ [id]
      | .attr _ _ => ds ++ [unparseAst d]
      | .call f _ => ds ++ [unparseAst f]
      | _ => ds)
    []

/-! ## Call-site extraction (`CodeAnalyzer._extract_function_calls`)

The `CallVisitor` walks the whole subtree of a function definition.  At
each `Call` node it records a key for bare-name calls, `self.method`
calls (class-qualified when inside a class), other simple-receiver
attribute calls (attribute name only) and chained calls; every other
receiver shape records nothing.  `current_class` is fixed for the whole
walk. -/

mutual
def callsOfExpr (cls : Option String) (file : String) : PyExpr → List String
  | .call f args =>
    (match f with
     | .name fname => [file ++ "::" ++ fname]
     | .attr (.name v) a =>
       if v = "self" && optTruthy cls then [file ++ "::" ++ cls.getD "" ++ "." ++ a]
       else [file ++ "::" ++ a]
     | .attr (.call _ _) a => [file ++ "::" ++ a]
     | _ => []) ++ callsOfExpr cls file f ++ callsOfExprList cls file args
  | .attr v _ => callsOfExpr cls file v
  | _ => []

def callsOfExprList (cls : Option String) (file : String) : List PyExpr → List String
  | [] => []
  | e :: es => callsOfExpr cls file e ++ callsOfExprList cls file es

def callsOfOptExpr (cls : Option String) (file : String) : Option PyExpr → List String
  | none => []
  | some e => callsOfExpr cls file e

def callsOfOptExprList (cls : Option String) (file : String) : List (Option PyExpr) → List String
  | [] => []
  | o :: os => callsOfOptExpr cls file o ++ callsOfOptExprList cls file os

def callsOfArg (cls : Option String) (file : String) (a : PyArg) : List String :=
  callsOfOptExpr cls file a.ann

def callsOfArgList (cls : Option String) (file : String) : List PyArg → List String
  | [] => []
  | a :: as_ => callsOfArg cls file a ++ callsOfArgList cls file as_

def callsOfOptArg (cls : Option String) (file : String) : Option PyArg → List String
  | none => []
  | some a => callsOfArg cls file a

def callsOfArgs (cls : Option String) (file : String) (args : PyArgs) : List String :=
  callsOfArgList cls file args.posonlyargs ++ callsOfArgList cls file args.args ++
    callsOfOptArg cls file args.vararg ++ callsOfArgList cls file args.kwonlyargs ++
    callsOfOptExprList cls file args.kw_defaults ++ callsOfOptArg cls file args.kwarg ++
    callsOfExprList cls file args.defaults

def callsOfStmt (cls : Option String) (file : String) : Stmt → List String
  | .exprStmt e => callsOfExpr cls file e
  | .funcDef _ _ args body decorator_list returns =>
    callsOfArgs cls file args ++ callsOfStmtList cls file body ++
      callsOfExprList cls file decorator_list ++ callsOfOptExpr cls file returns
  | .classDef _ _ bases body => callsOfExprList cls file bases ++ callsOfStmtList cls file body
  | _ => []

def callsOfStmtList (cls : Option String) (file : String) : List Stmt → List String
  | [] => []
  | s :: ss => callsOfStmt cls file s ++ callsOfStmtList cls file ss
end

/-- Deduplicate in first-occurrence order (the recorded `calls` is a
Python set; only membership is meaningful). -/
def dedup (l : List String) : List String :=
  l.foldl (fun acc x => insertNew x acc) []

/-- `CodeAnalyzer._extract_function_calls` applied to a whole function
definition node (the visitor descends into arguments, body, decorators
and the return annotation). -/
def extractFunctionCalls (cls : Option String) (file : String) (args : PyArgs)
    (body : List Stmt) (decorator_list : List PyExpr) (returns : Option PyExpr) : List String :=
  dedup (callsOfArgs cls file args ++ callsOfStmtList cls file body ++
    callsOfExprList cls file decorator_list ++ callsOfOptExpr cls file returns)

/-! ## The per-file `Visitor` of `CodeAnalyzer._analyze_file` -/

/-- `Visitor.visit_Import`: one entry per alias; the detail rows carry the
literal module name. -/
def visitImport (az : Analyzer) (relative_path : String) (lineno : Nat)
    (names : List (String × Option String)) : Analyzer :=
  names.foldl
    (fun az al =>
      let az := { az with imports_map := addToSetMap az.imports_map relative_path al.1 }
      { az with import_details := (appendAt az.import_details relative_path
          ⟨al.1, none, [al.1], false, lineno⟩) })
    az

/-- `Visitor.visit_ImportFrom`: records nothing when `node.module` is
falsy (`None` for `from . import x`); otherwise resolves
`node.module` — which carries no leading dots — when `level > 0`. -/
def visitImportFrom (az : Analyzer) (relative_path : String) (lineno : Nat)
    (module : Option String) (names : List String) (level : Nat) : Analyzer :=
  if optTruthy module then
    let m := module.getD ""
    let is_relative := decide (0 < level)
    let resolved_module := if is_relative then resolveRelativeImport m relative_path else some m
    let az := { az with imports_map := addToSetMap az.imports_map relative_path m }
    { az with import_details := (appendAt az.import_details relative_path
        ⟨m, resolved_module, names, is_relative, lineno⟩) }
  else az

/-- The `FunctionInfo` value built by `Visitor.visit_FunctionDef`. -/
def mkFuncInfo (relative_path : String) (cc : Option String) (lineno : Nat) (nm : String)
    (args : PyArgs) (body : List Stmt) (decorator_list : List PyExpr)
    (returns : Option PyExpr) : FunctionInfo :=
  ⟨nm, relative_path, lineno, extractParameters args, returns.map unparseAst,
    extractDocstring body, extractFunctionCalls cc relative_path args body decorator_list returns,
    [], extractDecorators decorator_list, optTruthy cc, cc⟩

/-- The state mutations of `Visitor.visit_FunctionDef` before its
`generic_visit` into the body. -/
def visitFuncDef (az : Analyzer) (relative_path : String) (cc : Option String) (lineno : Nat)
    (nm : String) (args : PyArgs) (body : List Stmt) (decorator_list : List PyExpr)
    (returns : Option PyExpr) : Analyzer :=
  let full_name := getFullFunctionName nm cc relative_path
  let func_info := mkFuncInfo relative_path cc lineno nm args body decorator_list returns
  let az := { az with functions := setKey az.functions full_name func_info }
  let az := { az with file_functions := appendAt az.file_functions relative_path full_name }
  let az :=
    if (lookupA az.files relative_path).isSome then
      { az with files := (modifyKey az.files relative_path
          (fun fr => { fr with functions := fr.functions ++ [full_name] })) }
    else az
  let module_name := getModuleName relative_path
  let az :=
    if (lookupA az.modules module_name).isSome then
      { az with modules := (modifyKey az.modules module_name
          (fun m => { m with functions := m.functions ++ [full_name] })) }
    else az
  match cc with
  | some c =>
    let class_full_name := relative_path ++ "::" ++ c
    let az := { az with classes := (modifyKey az.classes class_full_name
        (fun ci => { ci with methods := ci.methods ++ [full_name] })) }
    if (lookupA az.modules module_name).isSome then
      { az with modules := (modifyKey az.modules module_name
          (fun m => if class_full_name ∈ m.classes then m
                    else { m with classes := m.classes ++ [class_full_name] })) }
    else az
  | none => az

mutual
/-- `Visitor.visit_*` dispatch with the running `current_class`. -/
def visitStmt (az : Analyzer) (relative_path : String) (cc : Option String) : Stmt → Analyzer
  | .importStmt lineno names => visitImport az relative_path lineno names
  | .importFrom lineno module names level =>
    visitImportFrom az relative_path lineno module names level
  | .classDef lineno nm bases body =>
    let full_class_name := relative_path ++ "::" ++ nm
    let class_info : ClassInfo := ⟨nm, relative_path, lineno, [], bases.map unparseAst⟩
    let az := { az with classes := setKey az.classes full_class_name class_info }
    visitStmtList az relative_path (some nm) body
  | .funcDef lineno nm args body decorator_list returns =>
    visitStmtList (visitFuncDef az relative_path cc lineno nm args body decorator_list returns)
      relative_path cc body
  | .exprStmt _ => az

def visitStmtList (az : Analyzer) (relative_path : String) (cc : Option String) :
    List Stmt → Analyzer
  | [] => az
  | s :: ss => visitStmtList (visitStmt az relative_path cc s) relative_path cc ss
end

/-- `CodeAnalyzer._analyze_file`.  `parsed` is the outcome of
`ast.parse`, which runs before any analyzer state is touched: a
`SyntaxError` (modeled as `none`) is caught and leaves the state
unchanged — no partial records. -/
def analyzeFile (az : Analyzer) (relative_path : String) (parsed : Option (List Stmt)) : Analyzer :=
  match parsed with
  | none => az
  | some tree =>
    let az := registerFileInHierarchy az relative_path
    visitStmtList az relative_path none tree

/-! ## Call-graph resolution (`CodeAnalyzer._build_call_graph`) -/

/-- `called_func.split('::')[-1].split('.')[-1]`: the bare name suffix of
a call key. -/
def keySuffix (called_func : String) : String :=
  (pySplit ((pySplitOn called_func "::").getLastD "") '.').getLastD ""

def addCalledBy (caller : String) (fi : FunctionInfo) : FunctionInfo :=
  { fi with called_by := insertNew caller fi.called_by }

/-- Resolve one recorded call site: an exact key match links only that
function; otherwise every same-file function whose bare name equals the
key's suffix is linked. -/
def linkSite (acc : List (String × FunctionInfo)) (caller caller_file called_func : String) :
    List (String × FunctionInfo) :=
  if (lookupA acc called_func).isSome then
    acc.map (fun e => if e.1 = called_func then (e.1, addCalledBy caller e.2) else e)
  else
    acc.map (fun e =>
      if e.2.file_path = caller_file && e.2.name = keySuffix called_func then
        (e.1, addCalledBy caller e.2)
      else e)

/-- `_build_call_graph`: for every function, resolve each of its recorded
call sites.  (The Python loop mutates only `called_by` sets, so iterating
the original items is equivalent.) -/
def buildCallGraph (fns : List (String × FunctionInfo)) : List (String × FunctionInfo) :=
  fns.foldl (fun acc e => e.2.calls.foldl (fun a c => linkSite a e.1 e.2.file_path c) acc) fns

/-! ## Summary statistics (`CodeAnalyzer.get_summary`) -/

structure Summary where
  total_folders : Nat
  total_files : Nat
  total_modules : Nat
  total_functions : Nat
  total_classes : Nat
  total_parameters : Nat
  functions_with_docstrings : Nat
  functions_that_call_others : Nat
  functions_that_are_called : Nat
  average_parameters_per_function : Rat
deriving DecidableEq, Repr

def getSummary (az : Analyzer) : Summary :=
  let total_params := (az.functions.map (fun e => e.2.parameters.length)).sum
  { total_folders := (az.folders.filter (fun e => e.1 ≠ "")).length
    total_files := az.file_functions.length
    total_modules := az.modules.length
    total_functions := az.functions.length
    total_classes := az.classes.length
    total_parameters := total_params
    functions_with_docstrings := (az.functions.filter (fun e => optTruthy e.2.docstring)).length
    functions_that_call_others := (az.functions.filter (fun e => !e.2.calls.isEmpty)).length
    functions_that_are_called := (az.functions.filter (fun e => !e.2.called_by.isEmpty)).length
    average_parameters_per_function :=
      if !az.functions.isEmpty then (total_params : Rat) / (az.functions.length : Rat) else 0 }

/-! ## Graph output (`CodeAnalyzer.get_graph_data`) -/

/-- One graph node.  The four kinds carry the attributes the source
attaches to each (`str(None)` renderings are taken at the string fields
reading `Option` values). -/
inductive GNode where
  | folderNode (id label path : String) (file_count subfolder_count : Nat) : GNode
  | fileNode (id label path extension : String) (module : Option String) (folder : String)
      (function_count : Nat) (is_python : Bool) : GNode
  | moduleNode (id label name file folder : String) (function_count class_count : Nat) : GNode
  | funcNode (id label ntype file module folder : String) (line : Nat)
      (parameters : List String) (parameter_count : Nat) (has_docstring : Bool)
      (call_count : Nat) (called_by_count : Nat) (className : Option String) : GNode
deriving DecidableEq, Repr

def GNode.nodeId : GNode → String
  | .folderNode id _ _ _ _ => id
  | .fileNode id _ _ _ _ _ _ _ => id
  | .moduleNode id _ _ _ _ _ _ => id
  | .funcNode id _ _ _ _ _ _ _ _ _ _ _ _ => id

/-- One graph edge; `importsList`/`is_relative` are only populated on the
importing edges (the source adds those dict keys only there). -/
structure GEdge where
  source : String
  target : String
  etype : String
  relationship : String
  importsList : List String
  is_relative : Bool
deriving DecidableEq, Repr

def mkEdge (source target etype relationship : String) : GEdge :=
  ⟨source, target, etype, relationship, [], false⟩

/-- Python `f"module::{x}"` where `x` is `None` or a string. -/
def strOfOptStr : Option String → String
  | none => "None"
  | some s => s

def insertSorted {α : Type} (le : α → α → Bool) (x : α) : List α → List α
  | [] => [x]
  | y :: ys => if le x y then x :: y :: ys else y :: insertSorted le x ys

def insertionSort {α : Type} (le : α → α → Bool) : List α → List α
  | [] => []
  | x :: xs => insertSorted le x (insertionSort le xs)

/-- Lexicographic code-point order on strings, as Python compares
`str`. -/
def listLe : List Char → List Char → Bool
  | [], _ => true
  | _ :: _, [] => false
  | c :: cs, d :: ds => if c = d then listLe cs ds else decide (c < d)

def strLe (a b : String) : Bool := listLe a.toList b.toList

/-- `sorted(d.items())`: stable sort by key (keys here are unique). -/
def sortByKey {α : Type} (m : List (String × α)) : List (String × α) :=
  insertionSort (fun a b => strLe a.1 b.1) m

structure GraphData where
  nodes : List GNode
  edges : List GEdge
  summary : Summary
deriving DecidableEq, Repr

def getGraphData (az : Analyzer) : GraphData :=
  -- folder nodes (root excluded), file nodes, module nodes: sorted by key
  let folderNodes := (sortByKey az.folders).filterMap (fun e =>
    if e.1 ≠ "" then
      some (GNode.folderNode ("folder::" ++ e.1) (pathName e.1) e.1
        e.2.files.length e.2.subfolders.length)
    else none)
  let fileNodes := (sortByKey az.files).map (fun e =>
    GNode.fileNode ("file::" ++ e.1) e.2.name e.1 e.2.extension e.2.module e.2.folder
      e.2.functions.length e.2.is_python)
  let moduleNodes := (sortByKey az.modules).map (fun e =>
    GNode.moduleNode ("module::" ++ e.1) ((pySplit e.1 '.').getLastD "") e.1 e.2.file
      e.2.folder e.2.functions.length e.2.classes.length)
  let funcNodes := az.functions.map (fun e =>
    GNode.funcNode e.1 e.2.name (if e.2.is_method then "method" else "function")
      e.2.file_path (getModuleName e.2.file_path) (getFolderPath e.2.file_path)
      e.2.line_number e.2.parameters e.2.parameters.length (optTruthy e.2.docstring)
      e.2.calls.length e.2.called_by.length e.2.class_name)
  -- folder -> file containment (skipped for root-level files)
  let folderFileEdges := az.files.filterMap (fun e =>
    if e.2.folder ≠ "" then
      some (mkEdge ("folder::" ++ e.2.folder) ("file::" ++ e.1) "contains" "folder_contains_file")
    else none)
  -- file -> module definition: emitted for EVERY file record
  let fileModuleEdges := az.files.map (fun e =>
    mkEdge ("file::" ++ e.1) ("module::" ++ strOfOptStr e.2.module) "defines" "file_defines_module")
  -- module -> function containment
  let moduleFuncEdges := az.modules.flatMap (fun e =>
    e.2.functions.map (fun fn =>
      mkEdge ("module::" ++ e.1) fn "contains" "module_contains_function"))
  -- folder -> subfolder containment, parent derived by dropping the last segment
  let folderFolderEdges := az.folders.filterMap (fun e =>
    if e.1 ≠ "" then
      let parent_parts := pySplit e.1 '/'
      let parent_folder := if parent_parts.length > 1 then pyJoin '/' parent_parts.dropLast else ""
      if (lookupA az.folders parent_folder).isSome then
        some (mkEdge ("folder::" ++ parent_folder) ("folder::" ++ e.1) "contains"
          "folder_contains_folder")
      else none
    else none)
  -- call edges: only for call keys that exactly name a known function
  let callEdges := az.functions.flatMap (fun e =>
    e.2.calls.filterMap (fun called_func =>
      if (lookupA az.functions called_func).isSome then
        some (mkEdge e.1 called_func "calls" "function_call")
      else none))
  -- called_by edges: source is the CALLER, target the callee
  let calledByEdges := az.functions.flatMap (fun e =>
    e.2.called_by.map (fun caller => mkEdge caller e.1 "called_by" "dependency"))
  -- import edges: file -> file and module -> module for targets known in-project
  let importEdges := az.import_details.flatMap (fun fe =>
    let importing_file := fe.1
    let importing_module := getModuleName importing_file
    fe.2.flatMap (fun info =>
      let imported_module :=
        if optTruthy info.resolved_module then strOfOptStr info.resolved_module
        else info.fromModule
      let target : Option (String × String) :=
        if (lookupA az.modules imported_module).isSome then
          some ("module::" ++ imported_module,
            "file::" ++ (match lookupA az.modules imported_module with
                         | some m => m.file
                         | none => ""))
        else
          match az.modules.find? (fun km =>
            pyEndsWith km.1 ("." ++ imported_module) || km.1 = imported_module) with
          | some km => some ("module::" ++ km.1, "file::" ++ km.2.file)
          | none => none
      if (lookupA az.files importing_file).isSome then
        match target with
        | some t =>
          [{ source := "file::" ++ importing_file, target := t.2, etype := "imports",
             relationship := "file_imports_from_file", importsList := info.importsList,
             is_relative := info.is_relative },
           { source := "module::" ++ importing_module, target := t.1, etype := "imports",
             relationship := "module_imports_from_module", importsList := info.importsList,
             is_relative := info.is_relative }]
        | none => []
      else []))
  { nodes := folderNodes ++ fileNodes ++ moduleNodes ++ funcNodes,
    edges := folderFileEdges ++ fileModuleEdges ++ moduleFuncEdges ++ folderFolderEdges ++
      callEdges ++ calledByEdges ++ importEdges,
    summary := getSummary az }

/-! ## The full pipeline (`CodeAnalyzer.analyze`)

`parse` stands for the delegated Python parser: for each path it yields
`some tree` or `none` for a `SyntaxError`. -/

def analyze (root : List FSEntry) (rules : List Rule) (parse : String → Option (List Stmt)) :
    Analyzer :=
  let all_files := (walkProject rules root).map (fun segs => pyJoin '/' segs)
  let az := all_files.foldl registerFileInHierarchy initAnalyzer
  let python_files := all_files.filter (fun f => pathSuffix f = ".py")
  let az := python_files.foldl (fun a f => analyzeFile a f (parse f)) az
  { az with functions := buildCallGraph az.functions }

/-! # Lemmas about the dictionary / set model -/

theorem lookupA_isSome_iff {α : Type} (m : List (String × α)) (k : String) :
    (lookupA m k).isSome = true ↔ k ∈ m.map Prod.fst := by
  induction m with
  | nil => simp [lookupA]
  | cons e es ih =>
    by_cases h : e.1 = k
    · simp [lookupA, h]
    · simp only [lookupA, if_neg h, List.map_cons, List.mem_cons, ih]
      constructor
      · exact Or.inr
      · rintro (h' | h')
        · exact absurd h'.symm h
        · exact h'

theorem lookupA_mem {α : Type} {m : List (String × α)} {k : String} {v : α}
    (h : lookupA m k = some v) : (k, v) ∈ m := by
  induction m with
  | nil => simp [lookupA] at h
  | cons e es ih =>
    by_cases he : e.1 = k
    · simp only [lookupA, if_pos he] at h
      cases h
      have hke : (k, e.2) = e := by rw [← he]
      rw [hke]
      exact List.mem_cons_self e es
    · simp only [lookupA, if_neg he] at h
      exact List.mem_cons_of_mem _ (ih h)

/-- First entry with a given key. -/
def entryA {α : Type} : List (String × α) → String → Option (String × α)
  | [], _ => none
  | e :: es, k => if e.1 = k then some e else entryA es k

theorem lookupA_eq_entryA {α : Type} (m : List (String × α)) (k : String) :
    lookupA m k = (entryA m k).map Prod.snd := by
  induction m with
  | nil => simp [lookupA, entryA]
  | cons e es ih =>
    by_cases h : e.1 = k <;> simp [lookupA, entryA, h, ih]

theorem entryA_key {α : Type} {m : List (String × α)} {k : String} {e : String × α}
    (h : entryA m k = some e) : e.1 = k := by
  induction m with
  | nil => simp [entryA] at h
  | cons e' es ih =>
    by_cases h' : e'.1 = k
    · simp only [entryA, if_pos h'] at h
      cases h
      exact h'
    · simp only [entryA, if_neg h'] at h
      exact ih h

theorem entryA_mem {α : Type} {m : List (String × α)} {k : String} {e : String × α}
    (h : entryA m k = some e) : e ∈ m := by
  induction m with
  | nil => simp [entryA] at h
  | cons e' es ih =>
    by_cases h' : e'.1 = k
    · simp only [entryA, if_pos h'] at h
      cases h
      exact List.mem_cons_self _ _
    · simp only [entryA, if_neg h'] at h
      exact List.mem_cons_of_mem _ (ih h)

theorem entryA_mapUpd {α : Type} (g : String × α → α) (m : List (String × α)) (k : String) :
    entryA (m.map (fun e => (e.1, g e))) k = (entryA m k).map (fun e => (e.1, g e)) := by
  induction m with
  | nil => simp [entryA]
  | cons e es ih =>
    by_cases h : e.1 = k <;> simp [entryA, h, ih]

theorem keys_mapUpd {α : Type} (g : String × α → α) (m : List (String × α)) :
    (m.map (fun e => (e.1, g e))).map Prod.fst = m.map Prod.fst := by
  induction m with
  | nil => rfl
  | cons e es ih => simp [ih]

theorem mem_insertNew {x y : String} {l : List String} :
    x ∈ insertNew y l ↔ x = y ∨ x ∈ l := by
  unfold insertNew
  by_cases h : y ∈ l
  · simp only [if_pos h]
    constructor
    · exact Or.inr
    · rintro (rfl | h') <;> [exact h; exact h']
  · simp [if_neg h, or_comm]

theorem self_mem_insertNew (y : String) (l : List String) : y ∈ insertNew y l :=
  mem_insertNew.mpr (Or.inl rfl)

theorem mem_insertSorted {α : Type} (le : α → α → Bool) (x y : α) (l : List α) :
    x ∈ insertSorted le y l ↔ x = y ∨ x ∈ l := by
  induction l with
  | nil => simp [insertSorted]
  | cons z zs ih =>
    unfold insertSorted
    by_cases h : le y z
    · simp [h]
    · simp only [if_neg h, List.mem_cons, ih]
      tauto

theorem mem_insertionSort {α : Type} (le : α → α → Bool) (x : α) (l : List α) :
    x ∈ insertionSort le l ↔ x ∈ l := by
  induction l with
  | nil => simp [insertionSort]
  | cons z zs ih => simp [insertionSort, mem_insertSorted, ih]

theorem mem_sortByKey {α : Type} (e : String × α) (m : List (String × α)) :
    e ∈ sortByKey m ↔ e ∈ m :=
  mem_insertionSort _ e m

theorem foldl_push_eq_map {α β : Type} (f : α → β) :
    ∀ (l : List α) (init : List β), l.foldl (fun ps a => ps ++ [f a]) init = init ++ l.map f := by
  intro l
  induction l with
  | nil => simp
  | cons a l ih => intro init; simp [ih]

/-! # C10 — extracted parameters are exactly the plain positional ones -/

/-- C10: for every extracted function, the recorded parameter list is the
rendering of `args.args` alone: changing the positional-only,
var-positional, keyword-only, var-keyword or default groups leaves the
extraction unchanged, and the recorded count equals the number of plain
positional parameters (so every summary parameter count and the average
are computed from those only). -/
theorem C10_parameters_only_plain_positional :
    (∀ args : PyArgs, extractParameters args = args.args.map renderParam) ∧
    (∀ (args : PyArgs) (p : List PyArg) (v : Option PyArg) (ko : List PyArg)
        (kd : List (Option PyExpr)) (kw : Option PyArg) (d : List PyExpr),
        extractParameters ⟨p, args.args, v, ko, kd, kw, d⟩ = extractParameters args) ∧
    (∀ args : PyArgs, (extractParameters args).length = args.args.length) := by
  have hmap : ∀ args : PyArgs, extractParameters args = args.args.map renderParam := by
    intro args
    unfold extractParameters
    simpa using foldl_push_eq_map renderParam args.args []
  refine ⟨hmap, ?_, ?_⟩
  · intro args p v ko kd kw d
    rfl
  · intro args
    rw [hmap, List.length_map]

/-! # C2 — relative-import recording (`visit_ImportFrom`) -/

/-- C2 (code bug): a relative import written `from . import sibling` (or
`from .. import other`) reaches `visit_ImportFrom` with `module = None`
and the dot count in `level`; the `if node.module:` guard drops it, so
no import record at all is created — while `_resolve_relative_import`, fed
the dotted specifier its docstring describes, would indeed produce
`pkg.sibling`.  Moreover when a module name is present (`from .sub import
x`) the resolver receives the dotless `"sub"` and returns it unresolved. -/
theorem C2_relative_import_recording :
    (∀ (az : Analyzer) (rp : String) (lineno : Nat) (names : List String) (level : Nat),
        visitImportFrom az rp lineno none names level = az) ∧
    (visitImportFrom initAnalyzer "pkg/mod.py" 1 none ["sibling"] 1).import_details = [] ∧
    (visitImportFrom initAnalyzer "pkg/sub/mod.py" 1 none ["other"] 2).import_details = [] ∧
    resolveRelativeImport ".sibling" "pkg/mod.py" = some "pkg.sibling" ∧
    resolveRelativeImport "..other" "pkg/sub/mod.py" = some "pkg.sub.other" ∧
    (visitImportFrom initAnalyzer "pkg/mod.py" 1 (some "sub") ["x"] 1).import_details =
      [("pkg/mod.py", [⟨"sub", some "sub", ["x"], true, 1⟩])] := by
  refine ⟨fun az rp lineno names level => rfl, ?_, ?_, ?_, ?_, ?_⟩ <;> decide

/-! # C3 — ignore rules: negation wins in the matcher, but pruned
directories hide re-admitted files from the walk -/

theorem foldl_ruleStep_snd (parts : List String) (is_dir : Bool) :
    ∀ (rules : List Rule) (init : Bool × Bool),
      (rules.foldl (ruleStep parts is_dir) init).2 =
        (init.2 || rules.any (fun r => (!(r.is_directory && !is_dir)) &&
          matchesPattern parts r.pattern r.is_directory && r.is_negation)) := by
  intro rules
  induction rules with
  | nil => simp
  | cons r rs ih =>
    intro init
    rw [List.foldl_cons, ih, List.any_cons]
    unfold ruleStep
    by_cases h1 : (r.is_directory && !is_dir) = true
    · simp [h1]
    · by_cases h2 : matchesPattern parts r.pattern r.is_directory = true
      · by_cases h3 : r.is_negation = true
        · simp [h1, h2, h3]
        · simp only [Bool.not_eq_true] at h3
          simp [h1, h2, h3]
      · simp only [Bool.not_eq_true] at h2
        simp [h1, h2]

/-- Any applicable matching negation rule forces `should_ignore` to
`false`, whatever the other rules say and wherever it sits in the
list. -/
theorem shouldIgnore_negation_wins (rules : List Rule) (parts : List String) (is_dir : Bool)
    (h : ∃ r ∈ rules, r.is_negation = true ∧ (r.is_directory && !is_dir) = false ∧
      matchesPattern parts r.pattern r.is_directory = true) :
    shouldIgnore rules parts is_dir = false := by
  obtain ⟨r, hr, hneg, hdir, hmatch⟩ := h
  have hany : rules.any (fun r => (!(r.is_directory && !is_dir)) &&
      matchesPattern parts r.pattern r.is_directory && r.is_negation) = true := by
    rw [List.any_eq_true]
    exact ⟨r, hr, by rw [hdir, hmatch, hneg]; rfl⟩
  have h2 : (List.foldl (ruleStep parts is_dir) (false, false) rules).2 = true := by
    rw [foldl_ruleStep_snd, Bool.false_or]
    exact hany
  unfold shouldIgnore
  simp [h2]

def c3Rules : List Rule := parseGitignoreLines ["build/", "!build/keep.py"]

def c3Tree : List FSEntry := [.file "main.py", .dir "build" [.file "keep.py", .file "junk.py"]]

/-- C3 counterexample: with loaded rules `build/` and `!build/keep.py`,
the walker's output does NOT contain `build/keep.py` — the `build`
directory itself is ignored and pruned before its contents are ever
tested, so the negation never gets the chance to re-admit the file,
contradicting the claim that it appears in the walker's output. -/
theorem C3_counterexample : ¬ (["build", "keep.py"] ∈ walkProject c3Rules c3Tree) := by
  decide

/-- C3 (amended): the per-path `should_ignore` decision evaluates all
rules and any matching negation wins regardless of order — in particular
`should_ignore` on `build/keep.py` is `false` — and `build/` prunes every
path with a `build` segment from the walk; but since the walker skips the
ignored `build` directory before descending, `build/keep.py` never
appears in the output (the walk of the example is exactly
`[main.py]`). -/
theorem C3_negation_wins_but_pruning_hides_readmitted_files :
    (∀ (rules : List Rule) (parts : List String) (is_dir : Bool),
        (∃ r ∈ rules, r.is_negation = true ∧ (r.is_directory && !is_dir) = false ∧
          matchesPattern parts r.pattern r.is_directory = true) →
        shouldIgnore rules parts is_dir = false) ∧
    shouldIgnore c3Rules ["build", "keep.py"] false = false ∧
    shouldIgnore c3Rules ["build"] true = true ∧
    walkProject c3Rules c3Tree = [["main.py"]] :=
  ⟨shouldIgnore_negation_wins, by decide, by decide, by decide⟩

/-- Witness for the amended C3: instantiating the negation-wins clause on
the loaded example rules at the path `build/keep.py`. -/
theorem C3_witness : shouldIgnore c3Rules ["build", "keep.py"] false = false :=
  C3_negation_wins_but_pruning_hides_readmitted_files.1 c3Rules ["build", "keep.py"] false
    ⟨⟨"build/keep.py", true, false⟩, by decide, by decide, by decide, by decide⟩

/-! # C8 — summary average and the zero-function guards -/

/-- Registration touches only the hierarchy maps: every extraction-side
map is untouched. -/
theorem register_preserves_extraction (az : Analyzer) (p : String) :
    (registerFileInHierarchy az p).functions = az.functions ∧
    (registerFileInHierarchy az p).classes = az.classes ∧
    (registerFileInHierarchy az p).imports_map = az.imports_map ∧
    (registerFileInHierarchy az p).import_details = az.import_details ∧
    (registerFileInHierarchy az p).file_functions = az.file_functions := by
  unfold registerFileInHierarchy
  dsimp only
  repeat' split
  all_goals simp

theorem registerFold_preserves_extraction :
    ∀ (paths : List String) (az : Analyzer),
      (paths.foldl registerFileInHierarchy az).functions = az.functions ∧
      (paths.foldl registerFileInHierarchy az).classes = az.classes ∧
      (paths.foldl registerFileInHierarchy az).import_details = az.import_details ∧
      (paths.foldl registerFileInHierarchy az).file_functions = az.file_functions := by
  intro paths
  induction paths with
  | nil => intro az; exact ⟨rfl, rfl, rfl, rfl⟩
  | cons p ps ih =>
    intro az
    have h := register_preserves_extraction az p
    have h' := ih (registerFileInHierarchy az p)
    simp only [List.foldl_cons]
    exact ⟨h'.1.trans h.1, h'.2.1.trans h.2.1, h'.2.2.1.trans h.2.2.2.1,
      h'.2.2.2.trans h.2.2.2.2⟩

def c8Tree : List Stmt :=
  [.funcDef 1 "f" ⟨[], [⟨"a", none⟩], none, [], [], none, []⟩
     [.exprStmt (.strConst "one")] [] none,
   .funcDef 3 "g" ⟨[], [⟨"a", none⟩, ⟨"b", none⟩, ⟨"c", none⟩], none, [], [], none, []⟩
     [.exprStmt (.strConst "three")] [] none]

def c8Az : Analyzer := analyze [.file "m.py"] [] (fun p => if p = "m.py" then some c8Tree else none)

set_option maxHeartbeats 4000000 in
/-- C8: the summary average is total parameters over function count, `0`
when there are no functions; a project whose walk yields no source file
has `total_functions = 0` and average `0`; and the project with exactly
two functions of parameter counts 1 and 3 has average exactly `2`. -/
theorem C8_average_parameters :
    (∀ (root : List FSEntry) (rules : List Rule) (parse : String → Option (List Stmt)),
        ((walkProject rules root).map (fun segs => pyJoin '/' segs)).filter
            (fun f => pathSuffix f = ".py") = [] →
        (getSummary (analyze root rules parse)).total_functions = 0 ∧
        (getSummary (analyze root rules parse)).average_parameters_per_function = 0) ∧
    (∀ az : Analyzer, (getSummary az).average_parameters_per_function =
        if az.functions.isEmpty then 0
        else ((getSummary az).total_parameters : Rat) / ((getSummary az).total_functions : Rat)) ∧
    (getSummary c8Az).total_parameters = 4 ∧
    (getSummary c8Az).total_functions = 2 ∧
    (getSummary c8Az).average_parameters_per_function = 2 := by
  have hf : c8Az.functions =
      [("m.py::f", ⟨"f", "m.py", 1, ["a"], none, some "one", [], [], [], false, none⟩),
       ("m.py::g", ⟨"g", "m.py", 3, ["a", "b", "c"], none, some "three", [], [], [], false,
         none⟩)] := by
    decide
  refine ⟨?_, ?_, ?_, ?_, ?_⟩
  case refine_3 =>
    simp only [getSummary, hf]
    decide
  case refine_4 =>
    simp only [getSummary, hf]
    decide
  case refine_5 =>
    simp only [getSummary, hf]
    norm_num
  · intro root rules parse hnopy
    have hfns : (analyze root rules parse).functions = [] := by
      unfold analyze
      dsimp only
      rw [hnopy]
      simp only [List.foldl_nil]
      rw [(registerFold_preserves_extraction _ initAnalyzer).1]
      rfl
    constructor
    · simp [getSummary, hfns]
    · simp [getSummary, hfns]
  · intro az
    by_cases h : az.functions.isEmpty
    · simp [getSummary, h]
    · simp only [Bool.not_eq_true] at h
      simp [getSummary, h]

/-- Witness for C8: a project with a single non-source file has no
functions, and the average guard yields `0` rather than a fault. -/
theorem C8_witness :
    (getSummary (analyze [.file "notes.txt"] [] (fun _ => none))).total_functions = 0 ∧
    (getSummary (analyze [.file "notes.txt"] [] (fun _ => none))).average_parameters_per_function
      = 0 :=
  C8_average_parameters.1 [.file "notes.txt"] [] (fun _ => none) (by decide)

/-! # Further dictionary lemmas (membership through updates) -/

theorem mem_setKey {α : Type} {m : List (String × α)} {k : String} {v : α} {p : String × α}
    (h : p ∈ setKey m k v) : p ∈ m ∨ p = (k, v) := by
  unfold setKey at h
  split at h
  · obtain ⟨e, he, hp⟩ := List.mem_map.1 h
    split at hp
    · right; exact hp.symm
    · left; exact hp ▸ he
  · rcases List.mem_append.1 h with h' | h'
    · left; exact h'
    · right; simpa using h'

theorem mem_modifyKey {α : Type} {m : List (String × α)} {k : String} {g : α → α}
    {p : String × α} (h : p ∈ modifyKey m k g) :
    ∃ q ∈ m, p.1 = q.1 ∧ (p.2 = q.2 ∨ p.2 = g q.2) := by
  unfold modifyKey at h
  obtain ⟨e, he, hp⟩ := List.mem_map.1 h
  split at hp
  · exact ⟨e, he, by rw [← hp], Or.inr (by rw [← hp])⟩
  · exact ⟨e, he, by rw [← hp], Or.inl (by rw [← hp])⟩

theorem keys_appendAt {α : Type} {m : List (String × List α)} {k : String} {v : α}
    {k' : String} (h : k' ∈ (appendAt m k v).map Prod.fst) :
    k' ∈ m.map Prod.fst ∨ k' = k := by
  unfold appendAt at h
  split at h
  · unfold modifyKey at h
    obtain ⟨e, he, hp⟩ := List.mem_map.1 h
    obtain ⟨q, hq, hpq⟩ := List.mem_map.1 he
    left
    refine List.mem_map.2 ⟨q, hq, ?_⟩
    rw [← hp]
    split at hpq <;> rw [← hpq]
  · rw [List.map_append] at h
    rcases List.mem_append.1 h with h' | h'
    · left; exact h'
    · right; simpa using h'

theorem keys_addToSetMap {m : List (String × List String)} {k v k' : String}
    (h : k' ∈ (addToSetMap m k v).map Prod.fst) :
    k' ∈ m.map Prod.fst ∨ k' = k := by
  unfold addToSetMap at h
  split at h
  · unfold modifyKey at h
    obtain ⟨e, he, hp⟩ := List.mem_map.1 h
    obtain ⟨q, hq, hpq⟩ := List.mem_map.1 he
    left
    refine List.mem_map.2 ⟨q, hq, ?_⟩
    rw [← hp]
    split at hpq <;> rw [← hpq]
  · rw [List.map_append] at h
    rcases List.mem_append.1 h with h' | h'
    · left; exact h'
    · right; simpa using h'

/-! # C7 — a syntax error skips the file entirely, with no partial
records, and analysis continues -/

/-- No function record, class record, or import record is attributed to
file `f`. -/
def NoRecordsFor (f : String) (az : Analyzer) : Prop :=
  (∀ p ∈ az.functions, p.2.file_path ≠ f) ∧
  (∀ p ∈ az.classes, p.2.file_path ≠ f) ∧
  (∀ k ∈ az.import_details.map Prod.fst, k ≠ f)

theorem visitImport_noRecords {f : String} {az : Analyzer} {rp : String} {lineno : Nat}
    (names : List (String × Option String)) (hrp : rp ≠ f) (h : NoRecordsFor f az) :
    NoRecordsFor f (visitImport az rp lineno names) := by
  unfold visitImport
  induction names generalizing az with
  | nil => exact h
  | cons al names ih =>
    refine ih ?_
    refine ⟨h.1, h.2.1, ?_⟩
    intro k hk
    rcases keys_appendAt hk with h' | h'
    · exact h.2.2 k h'
    · rw [h']; exact hrp

theorem visitImportFrom_noRecords {f : String} {az : Analyzer} {rp : String} {lineno : Nat}
    {module : Option String} {names : List String} {level : Nat}
    (hrp : rp ≠ f) (h : NoRecordsFor f az) :
    NoRecordsFor f (visitImportFrom az rp lineno module names level) := by
  unfold visitImportFrom
  split
  · refine ⟨h.1, h.2.1, ?_⟩
    intro k hk
    rcases keys_appendAt hk with h' | h'
    · exact h.2.2 k h'
    · rw [h']; exact hrp
  · exact h

theorem visitFuncDef_functions (az : Analyzer) (rp : String) (cc : Option String)
    (lineno : Nat) (nm : String) (args : PyArgs) (body : List Stmt)
    (decorator_list : List PyExpr) (returns : Option PyExpr) :
    (visitFuncDef az rp cc lineno nm args body decorator_list returns).functions =
      setKey az.functions (getFullFunctionName nm cc rp)
        (mkFuncInfo rp cc lineno nm args body decorator_list returns) := by
  unfold visitFuncDef
  dsimp only
  repeat' split
  all_goals rfl

theorem visitFuncDef_classes (az : Analyzer) (rp : String) (cc : Option String)
    (lineno : Nat) (nm : String) (args : PyArgs) (body : List Stmt)
    (decorator_list : List PyExpr) (returns : Option PyExpr) :
    (visitFuncDef az rp cc lineno nm args body decorator_list returns).classes =
      (match cc with
       | some c => modifyKey az.classes (rp ++ "::" ++ c)
           (fun ci => { ci with methods := ci.methods ++ [getFullFunctionName nm cc rp] })
       | none => az.classes) := by
  unfold visitFuncDef
  dsimp only
  repeat' split
  all_goals rfl

theorem visitFuncDef_import_details (az : Analyzer) (rp : String) (cc : Option String)
    (lineno : Nat) (nm : String) (args : PyArgs) (body : List Stmt)
    (decorator_list : List PyExpr) (returns : Option PyExpr) :
    (visitFuncDef az rp cc lineno nm args body decorator_list returns).import_details =
      az.import_details := by
  unfold visitFuncDef
  dsimp only
  repeat' split
  all_goals rfl

theorem visitFuncDef_imports_map (az : Analyzer) (rp : String) (cc : Option String)
    (lineno : Nat) (nm : String) (args : PyArgs) (body : List Stmt)
    (decorator_list : List PyExpr) (returns : Option PyExpr) :
    (visitFuncDef az rp cc lineno nm args body decorator_list returns).imports_map =
      az.imports_map := by
  unfold visitFuncDef
  dsimp only
  repeat' split
  all_goals rfl

theorem visitFuncDef_file_functions (az : Analyzer) (rp : String) (cc : Option String)
    (lineno : Nat) (nm : String) (args : PyArgs) (body : List Stmt)
    (decorator_list : List PyExpr) (returns : Option PyExpr) :
    (visitFuncDef az rp cc lineno nm args body decorator_list returns).file_functions =
      appendAt az.file_functions rp (getFullFunctionName nm cc rp) := by
  unfold visitFuncDef
  dsimp only
  repeat' split
  all_goals rfl

mutual
theorem visitStmt_noRecords (f : String) (az : Analyzer) (rp : String) (cc : Option String)
    (s : Stmt) (hrp : rp ≠ f) (h : NoRecordsFor f az) :
    NoRecordsFor f (visitStmt az rp cc s) := by
  cases s with
  | importStmt lineno names => exact visitImport_noRecords names hrp h
  | importFrom lineno module names level => exact visitImportFrom_noRecords hrp h
  | exprStmt e => exact h
  | classDef lineno nm bases body =>
    show NoRecordsFor f (visitStmtList _ rp (some nm) body)
    refine visitStmtList_noRecords f _ rp (some nm) body hrp ?_
    refine ⟨h.1, ?_, h.2.2⟩
    intro p hp
    rcases mem_setKey hp with h' | h'
    · exact h.2.1 p h'
    · rw [h']; exact hrp
  | funcDef lineno nm args body decorator_list returns =>
    show NoRecordsFor f
      (visitStmtList (visitFuncDef az rp cc lineno nm args body decorator_list returns) rp cc body)
    refine visitStmtList_noRecords f _ rp cc body hrp ?_
    refine ⟨?_, ?_, ?_⟩
    · intro p hp
      rw [visitFuncDef_functions] at hp
      rcases mem_setKey hp with h' | h'
      · exact h.1 p h'
      · rw [h']; exact hrp
    · intro p hp
      rw [visitFuncDef_classes] at hp
      rcases cc with _ | c
      · exact h.2.1 p hp
      · obtain ⟨q, hq, hk, hv⟩ := mem_modifyKey hp
        have hq' := h.2.1 q hq
        rcases hv with hv | hv <;> rw [hv] <;> exact hq'
    · intro k hk
      rw [visitFuncDef_import_details] at hk
      exact h.2.2 k hk

theorem visitStmtList_noRecords (f : String) (az : Analyzer) (rp : String) (cc : Option String)
    (ss : List Stmt) (hrp : rp ≠ f) (h : NoRecordsFor f az) :
    NoRecordsFor f (visitStmtList az rp cc ss) := by
  cases ss with
  | nil => exact h
  | cons s ss =>
    show NoRecordsFor f (visitStmtList (visitStmt az rp cc s) rp cc ss)
    exact visitStmtList_noRecords f _ rp cc ss hrp (visitStmt_noRecords f az rp cc s hrp h)
end

/-- Each call-site resolution step only rewrites `called_by` sets: every
entry of the result corresponds to an entry of the input with the same
key, name, file and call set. -/
theorem mem_linkSite {acc : List (String × FunctionInfo)}
    {caller caller_file called_func : String} {p : String × FunctionInfo}
    (h : p ∈ linkSite acc caller caller_file called_func) :
    ∃ q ∈ acc, p.1 = q.1 ∧ p.2.name = q.2.name ∧ p.2.file_path = q.2.file_path ∧
      p.2.calls = q.2.calls := by
  unfold linkSite at h
  split at h
  all_goals
    obtain ⟨e, he, hp⟩ := List.mem_map.1 h
    split at hp
    all_goals refine ⟨e, he, ?_, ?_, ?_, ?_⟩ <;> rw [← hp]
    all_goals rfl

theorem mem_linkSiteFold {caller caller_file : String} :
    ∀ (cs : List String) (acc : List (String × FunctionInfo)) (p : String × FunctionInfo),
      p ∈ cs.foldl (fun a c => linkSite a caller caller_file c) acc →
      ∃ q ∈ acc, p.1 = q.1 ∧ p.2.name = q.2.name ∧ p.2.file_path = q.2.file_path ∧
        p.2.calls = q.2.calls := by
  intro cs
  induction cs with
  | nil => intro acc p h; exact ⟨p, h, rfl, rfl, rfl, rfl⟩
  | cons c cs ih =>
    intro acc p h
    obtain ⟨q, hq, e1, e2, e3, e4⟩ := ih _ p h
    obtain ⟨q', hq', f1, f2, f3, f4⟩ := mem_linkSite hq
    exact ⟨q', hq', e1.trans f1, e2.trans f2, e3.trans f3, e4.trans f4⟩

theorem mem_buildCallGraphAux :
    ∀ (todo : List (String × FunctionInfo)) (acc : List (String × FunctionInfo))
      (p : String × FunctionInfo),
      p ∈ todo.foldl (fun acc e => e.2.calls.foldl (fun a c => linkSite a e.1 e.2.file_path c) acc)
        acc →
      ∃ q ∈ acc, p.1 = q.1 ∧ p.2.name = q.2.name ∧ p.2.file_path = q.2.file_path ∧
        p.2.calls = q.2.calls := by
  intro todo
  induction todo with
  | nil => intro acc p h; exact ⟨p, h, rfl, rfl, rfl, rfl⟩
  | cons e todo ih =>
    intro acc p h
    obtain ⟨q, hq, e1, e2, e3, e4⟩ := ih _ p h
    obtain ⟨q', hq', f1, f2, f3, f4⟩ := mem_linkSiteFold e.2.calls acc q hq
    exact ⟨q', hq', e1.trans f1, e2.trans f2, e3.trans f3, e4.trans f4⟩

/-- `_build_call_graph` only grows `called_by` sets: keys, names, files
and call sets of all entries are those of the input map. -/
theorem mem_buildCallGraph {fns : List (String × FunctionInfo)} {p : String × FunctionInfo}
    (h : p ∈ buildCallGraph fns) :
    ∃ q ∈ fns, p.1 = q.1 ∧ p.2.name = q.2.name ∧ p.2.file_path = q.2.file_path ∧
      p.2.calls = q.2.calls :=
  mem_buildCallGraphAux fns fns p h

theorem analyzeFile_noRecords {f : String} {az : Analyzer} {p : String}
    {t : Option (List Stmt)} (hp : p ≠ f) (h : NoRecordsFor f az) :
    NoRecordsFor f (analyzeFile az p t) := by
  cases t with
  | none => exact h
  | some tree =>
    show NoRecordsFor f (visitStmtList (registerFileInHierarchy az p) p none tree)
    refine visitStmtList_noRecords f _ p none tree hp ?_
    obtain ⟨h1, h2, h3, h4, h5⟩ := register_preserves_extraction az p
    exact ⟨h1 ▸ h.1, h2 ▸ h.2.1, h4 ▸ h.2.2⟩

/-- C7: when `ast.parse` fails on a file, the analyzer state is left
untouched by that file (`_analyze_file` mutates nothing before the parse),
the per-file loop behaves exactly as if the failing file were absent, and
the final analysis contains no function, class or import record
attributed to it — other files are still fully analyzed. -/
theorem C7_syntax_error_skips_file :
    ∀ (root : List FSEntry) (rules : List Rule) (parse : String → Option (List Stmt))
      (f : String), parse f = none →
      (∀ az : Analyzer, analyzeFile az f (parse f) = az) ∧
      (∀ (pyfiles : List String) (az : Analyzer),
          pyfiles.foldl (fun a q => analyzeFile a q (parse q)) az =
            (pyfiles.filter (fun q => q ≠ f)).foldl
              (fun a q => analyzeFile a q (parse q)) az) ∧
      NoRecordsFor f (analyze root rules parse) := by
  intro root rules parse f hparse
  refine ⟨?_, ?_, ?_⟩
  · intro az
    rw [hparse]
    rfl
  · intro pyfiles
    induction pyfiles with
    | nil => intro az; rfl
    | cons q qs ih =>
      intro az
      by_cases hq : q = f
      · subst hq
        have : analyzeFile az q (parse q) = az := by rw [hparse]; rfl
        simp only [List.foldl_cons, List.filter_cons, this]
        simp only [decide_not, decide_True, Bool.not_true, ih]
        simp [ih]
      · simp only [List.foldl_cons, List.filter_cons]
        have : (decide ¬q = f) = true := by simp [hq]
        rw [this]
        simp only [List.foldl_cons]
        exact ih _
  · unfold analyze
    dsimp only
    have hreg : NoRecordsFor f
        (((walkProject rules root).map (fun segs => pyJoin '/' segs)).foldl
          registerFileInHierarchy initAnalyzer) := by
      obtain ⟨h1, h2, h3, h4⟩ :=
        registerFold_preserves_extraction
          ((walkProject rules root).map (fun segs => pyJoin '/' segs)) initAnalyzer
      refine ⟨h1 ▸ ?_, h2 ▸ ?_, h3 ▸ ?_⟩ <;> intro p hp <;> simp [initAnalyzer] at hp
    have hext : ∀ (pyfiles : List String) (az : Analyzer), NoRecordsFor f az →
        NoRecordsFor f (pyfiles.foldl (fun a q => analyzeFile a q (parse q)) az) := by
      intro pyfiles
      induction pyfiles with
      | nil => intro az h; exact h
      | cons q qs ih =>
        intro az h
        simp only [List.foldl_cons]
        refine ih _ ?_
        by_cases hq : q = f
        · subst hq
          rw [hparse]
          exact h
        · exact analyzeFile_noRecords hq h
    have hbase := hext
      ((((walkProject rules root).map (fun segs => pyJoin '/' segs)).filter
        (fun q => pathSuffix q = ".py"))) _ hreg
    refine ⟨?_, hbase.2.1, hbase.2.2⟩
    intro p hp
    obtain ⟨q, hq, _, _, e3, _⟩ := mem_buildCallGraph hp
    rw [e3]
    exact hbase.1 q hq

/-- Witness for C7: a project whose only file always fails to parse
yields an analysis with no records for it. -/
theorem C7_witness :
    NoRecordsFor "m.py" (analyze [.file "m.py"] [] (fun _ => none)) :=
  (C7_syntax_error_skips_file [.file "m.py"] [] (fun _ => none) "m.py" rfl).2.2

/-! # C6 — what the summary's `total_files` actually counts -/

mutual
/-- Does a statement (sub)tree contain any function definition the
visitor would record? -/
def stmtHasFuncDef : Stmt → Bool
  | .funcDef _ _ _ _ _ _ => true
  | .classDef _ _ _ body => stmtsHaveFuncDef body
  | _ => false

def stmtsHaveFuncDef : List Stmt → Bool
  | [] => false
  | s :: ss => stmtHasFuncDef s || stmtsHaveFuncDef ss
end

theorem keys_appendAt_iff {α : Type} (m : List (String × List α)) (k : String) (v : α)
    (k' : String) :
    k' ∈ (appendAt m k v).map Prod.fst ↔ k' ∈ m.map Prod.fst ∨ k' = k := by
  constructor
  · exact keys_appendAt
  · intro h
    unfold appendAt
    split
    · unfold modifyKey
      rw [show (fun (e : String × List α) => if e.1 = k then (e.1, e.2 ++ [v]) else e) =
          (fun (e : String × List α) => (e.1, if e.1 = k then e.2 ++ [v] else e.2)) from ?_]
      · rw [keys_mapUpd]
        rcases h with h | h
        · exact h
        · rw [h, ← lookupA_isSome_iff]
          assumption
      · funext e
        split <;> simp_all
    · rw [List.map_append]
      rcases h with h | h
      · exact List.mem_append.2 (Or.inl h)
      · exact List.mem_append.2 (Or.inr (by simp [h]))

theorem visitImport_file_functions (rp : String) (lineno : Nat) :
    ∀ (names : List (String × Option String)) (az : Analyzer),
      (visitImport az rp lineno names).file_functions = az.file_functions := by
  intro names
  induction names with
  | nil => intro az; rfl
  | cons al names ih =>
    intro az
    show (visitImport _ rp lineno names).file_functions = _
    rw [ih]

theorem visitImportFrom_file_functions (az : Analyzer) (rp : String) (lineno : Nat)
    (module : Option String) (names : List String) (level : Nat) :
    (visitImportFrom az rp lineno module names level).file_functions = az.file_functions := by
  unfold visitImportFrom
  split <;> rfl

mutual
theorem visitStmt_file_functions_keys (az : Analyzer) (rp : String) (cc : Option String)
    (s : Stmt) (k : String) :
    (k ∈ (visitStmt az rp cc s).file_functions.map Prod.fst ↔
      k ∈ az.file_functions.map Prod.fst ∨ (k = rp ∧ stmtHasFuncDef s = true)) := by
  cases s with
  | importStmt lineno names =>
    show k ∈ (visitImport az rp lineno names).file_functions.map Prod.fst ↔ _
    rw [visitImport_file_functions]
    simp [stmtHasFuncDef]
  | importFrom lineno module names level =>
    show k ∈ (visitImportFrom az rp lineno module names level).file_functions.map Prod.fst ↔ _
    rw [visitImportFrom_file_functions]
    simp [stmtHasFuncDef]
  | exprStmt e => simp [visitStmt, stmtHasFuncDef]
  | classDef lineno nm bases body =>
    show k ∈ (visitStmtList _ rp (some nm) body).file_functions.map Prod.fst ↔ _
    rw [visitStmtList_file_functions_keys]
    simp [stmtHasFuncDef]
  | funcDef lineno nm args body decorator_list returns =>
    show k ∈ (visitStmtList (visitFuncDef az rp cc lineno nm args body decorator_list returns)
      rp cc body).file_functions.map Prod.fst ↔ _
    rw [visitStmtList_file_functions_keys, visitFuncDef_file_functions, keys_appendAt_iff]
    simp only [stmtHasFuncDef, and_true]
    tauto

theorem visitStmtList_file_functions_keys (az : Analyzer) (rp : String) (cc : Option String)
    (ss : List Stmt) (k : String) :
    (k ∈ (visitStmtList az rp cc ss).file_functions.map Prod.fst ↔
      k ∈ az.file_functions.map Prod.fst ∨ (k = rp ∧ stmtsHaveFuncDef ss = true)) := by
  cases ss with
  | nil => simp [visitStmtList, stmtsHaveFuncDef]
  | cons s ss =>
    show k ∈ (visitStmtList (visitStmt az rp cc s) rp cc ss).file_functions.map Prod.fst ↔ _
    rw [visitStmtList_file_functions_keys, visitStmt_file_functions_keys]
    simp only [stmtsHaveFuncDef, Bool.or_eq_true]
    tauto
end

theorem registerFile_file_functions (az : Analyzer) (p : String) :
    (registerFileInHierarchy az p).file_functions = az.file_functions :=
  (register_preserves_extraction az p).2.2.2.2

theorem analyzeFile_file_functions_keys (az : Analyzer) (p : String)
    (t : Option (List Stmt)) (k : String) :
    (k ∈ (analyzeFile az p t).file_functions.map Prod.fst ↔
      k ∈ az.file_functions.map Prod.fst ∨
        (k = p ∧ ∃ tree, t = some tree ∧ stmtsHaveFuncDef tree = true)) := by
  cases t with
  | none => simp [analyzeFile]
  | some tree =>
    show k ∈ (visitStmtList (registerFileInHierarchy az p) p none tree).file_functions.map
      Prod.fst ↔ _
    rw [visitStmtList_file_functions_keys, registerFile_file_functions]
    constructor
    · rintro (h | ⟨hk, hfd⟩)
      · exact Or.inl h
      · exact Or.inr ⟨hk, tree, rfl, hfd⟩
    · rintro (h | ⟨hk, tree', htree, hfd⟩)
      · exact Or.inl h
      · cases htree
        exact Or.inr ⟨hk, hfd⟩

def readmeAz : Analyzer := analyze [.file "README.md"] [] (fun _ => none)

/-- C6 counterexample: for the project holding the single (non-source)
file `README.md`, the walker tracks one file record, but the summary's
`total_files` is `0` — `get_summary` sizes `file_functions`, which only
ever gains files from which a function was extracted. -/
theorem C6_counterexample :
    ¬ ((getSummary readmeAz).total_files = readmeAz.files.length) := by
  decide

/-- C6 (amended): `total_files` is the size of the `file_functions` map:
exactly the source files that were walked, parsed successfully, and
contain at least one function definition — not the count of all tracked
file records. -/
theorem C6_total_files_counts_files_with_functions :
    (∀ az : Analyzer, (getSummary az).total_files = az.file_functions.length) ∧
    (∀ (root : List FSEntry) (rules : List Rule) (parse : String → Option (List Stmt))
        (k : String),
        k ∈ (analyze root rules parse).file_functions.map Prod.fst ↔
          (k ∈ ((walkProject rules root).map (fun segs => pyJoin '/' segs)).filter
              (fun q => pathSuffix q = ".py") ∧
            ∃ tree, parse k = some tree ∧ stmtsHaveFuncDef tree = true)) := by
  refine ⟨fun az => rfl, ?_⟩
  intro root rules parse k
  unfold analyze
  dsimp only
  have hfold : ∀ (pyfiles : List String) (az : Analyzer),
      k ∈ (pyfiles.foldl (fun a q => analyzeFile a q (parse q)) az).file_functions.map
        Prod.fst ↔
      k ∈ az.file_functions.map Prod.fst ∨
        (k ∈ pyfiles ∧ ∃ tree, parse k = some tree ∧ stmtsHaveFuncDef tree = true) := by
    intro pyfiles
    induction pyfiles with
    | nil => intro az; simp
    | cons q qs ih =>
      intro az
      simp only [List.foldl_cons]
      rw [ih, analyzeFile_file_functions_keys]
      constructor
      · rintro ((h | ⟨hk, htree⟩) | ⟨hq, htree⟩)
        · exact Or.inl h
        · exact Or.inr ⟨by rw [hk]; exact List.mem_cons_self _ _, by rw [hk]; exact htree⟩
        · exact Or.inr ⟨List.mem_cons_of_mem _ hq, htree⟩
      · rintro (h | ⟨hq, htree⟩)
        · exact Or.inl (Or.inl h)
        · rcases List.mem_cons.1 hq with hq' | hq'
          · exact Or.inl (Or.inr ⟨hq', by rw [← hq']; exact htree⟩)
          · exact Or.inr ⟨hq', htree⟩
  rw [hfold]
  rw [show (((walkProject rules root).map (fun segs => pyJoin '/' segs)).foldl
      registerFileInHierarchy initAnalyzer).file_functions = [] from
    (registerFold_preserves_extraction _ initAnalyzer).2.2.2]
  simp

/-! # C5 — file → module `defines` edges -/

theorem register_files (az : Analyzer) (p : String) :
    (registerFileInHierarchy az p).files =
      (if (lookupA az.files p).isSome then az.files else az.files ++ [(p, mkFileRec p)]) := by
  unfold registerFileInHierarchy
  dsimp only
  repeat' split
  all_goals rfl

theorem register_modules (az : Analyzer) (p : String) :
    (registerFileInHierarchy az p).modules =
      (if pathSuffix p = ".py" then
        (if (getModuleName p ≠ "" && !(lookupA az.modules (getModuleName p)).isSome) = true then
          az.modules ++ [(getModuleName p,
            (⟨getModuleName p, p, getFolderPath p, [], []⟩ : ModuleRec))]
         else az.modules)
       else az.modules) := by
  unfold registerFileInHierarchy
  dsimp only
  repeat' split
  all_goals simp_all

theorem register_modules_keys_grow (az : Analyzer) (p : String) {k : String}
    (h : k ∈ az.modules.map Prod.fst) :
    k ∈ (registerFileInHierarchy az p).modules.map Prod.fst := by
  rw [register_modules]
  split
  · split
    · rw [List.map_append]; exact List.mem_append.2 (Or.inl h)
    · exact h
  · exact h

theorem keys_modifyKey {α : Type} (m : List (String × α)) (k : String) (f : α → α) :
    (modifyKey m k f).map Prod.fst = m.map Prod.fst := by
  unfold modifyKey
  induction m with
  | nil => rfl
  | cons e es ih => by_cases h : e.1 = k <;> simp [h, ih]

theorem register_modules_key_new (az : Analyzer) (p : String)
    (hpy : pathSuffix p = ".py") (hm : getModuleName p ≠ "") :
    getModuleName p ∈ (registerFileInHierarchy az p).modules.map Prod.fst := by
  rw [register_modules, if_pos hpy]
  cases hlook : (lookupA az.modules (getModuleName p)).isSome with
  | true =>
    rw [if_neg (by simp [hlook])]
    exact (lookupA_isSome_iff _ _).1 hlook
  | false =>
    rw [if_pos (by simp [hlook, hm])]
    rw [List.map_append]
    exact List.mem_append.2 (Or.inr (by simp))

/-- Key/attribute shape equality between file records (everything except
the growing `functions` list). -/
def FileShapeEq (p q : String × FileRec) : Prop :=
  p.1 = q.1 ∧ p.2.module = q.2.module ∧ p.2.is_python = q.2.is_python ∧
    p.2.folder = q.2.folder

theorem visitImport_hierarchy (rp : String) (lineno : Nat) :
    ∀ (names : List (String × Option String)) (az : Analyzer),
      (visitImport az rp lineno names).folders = az.folders ∧
      (visitImport az rp lineno names).modules = az.modules ∧
      (visitImport az rp lineno names).files = az.files := by
  intro names
  induction names with
  | nil => intro az; exact ⟨rfl, rfl, rfl⟩
  | cons al names ih =>
    intro az
    show (visitImport _ rp lineno names).folders = _ ∧ _
    obtain ⟨h1, h2, h3⟩ := ih _
    exact ⟨h1, h2, h3⟩

theorem visitImportFrom_hierarchy (az : Analyzer) (rp : String) (lineno : Nat)
    (module : Option String) (names : List String) (level : Nat) :
    (visitImportFrom az rp lineno module names level).folders = az.folders ∧
    (visitImportFrom az rp lineno module names level).modules = az.modules ∧
    (visitImportFrom az rp lineno module names level).files = az.files := by
  unfold visitImportFrom
  split <;> exact ⟨rfl, rfl, rfl⟩

theorem visitFuncDef_folders (az : Analyzer) (rp : String) (cc : Option String)
    (lineno : Nat) (nm : String) (args : PyArgs) (body : List Stmt)
    (decorator_list : List PyExpr) (returns : Option PyExpr) :
    (visitFuncDef az rp cc lineno nm args body decorator_list returns).folders = az.folders := by
  unfold visitFuncDef
  dsimp only
  repeat' split
  all_goals rfl

theorem visitFuncDef_modules_keys (az : Analyzer) (rp : String) (cc : Option String)
    (lineno : Nat) (nm : String) (args : PyArgs) (body : List Stmt)
    (decorator_list : List PyExpr) (returns : Option PyExpr) :
    (visitFuncDef az rp cc lineno nm args body decorator_list returns).modules.map Prod.fst =
      az.modules.map Prod.fst := by
  unfold visitFuncDef
  dsimp only
  repeat' split
  all_goals simp [keys_modifyKey]

theorem visitFuncDef_files_shape (az : Analyzer) (rp : String) (cc : Option String)
    (lineno : Nat) (nm : String) (args : PyArgs) (body : List Stmt)
    (decorator_list : List PyExpr) (returns : Option PyExpr) {p : String × FileRec}
    (hp : p ∈ (visitFuncDef az rp cc lineno nm args body decorator_list returns).files) :
    ∃ q ∈ az.files, FileShapeEq p q := by
  have hfiles : (visitFuncDef az rp cc lineno nm args body decorator_list returns).files =
      (if (lookupA az.files rp).isSome then
        modifyKey az.files rp (fun fr => { fr with functions :=
          fr.functions ++ [getFullFunctionName nm cc rp] })
       else az.files) := by
    unfold visitFuncDef
    dsimp only
    repeat' split
    all_goals rfl
  rw [hfiles] at hp
  split at hp
  · obtain ⟨q, hq, hk, hv⟩ := mem_modifyKey hp
    refine ⟨q, hq, hk, ?_⟩
    rcases hv with hv | hv <;> rw [hv] <;> exact ⟨rfl, rfl, rfl⟩
  · exact ⟨p, hp, rfl, rfl, rfl, rfl⟩

mutual
theorem visitStmt_hierarchy_shape (az : Analyzer) (rp : String) (cc : Option String)
    (s : Stmt) :
    (visitStmt az rp cc s).folders = az.folders ∧
    (visitStmt az rp cc s).modules.map Prod.fst = az.modules.map Prod.fst ∧
    (∀ p ∈ (visitStmt az rp cc s).files, ∃ q ∈ az.files, FileShapeEq p q) := by
  cases s with
  | importStmt lineno names =>
    show (visitImport az rp lineno names).folders = az.folders ∧
      (visitImport az rp lineno names).modules.map Prod.fst = az.modules.map Prod.fst ∧
      (∀ p ∈ (visitImport az rp lineno names).files, ∃ q ∈ az.files, FileShapeEq p q)
    obtain ⟨h1, h2, h3⟩ := visitImport_hierarchy rp lineno names az
    exact ⟨h1, by rw [h2], by rw [h3]; exact fun p hp => ⟨p, hp, rfl, rfl, rfl, rfl⟩⟩
  | importFrom lineno module names level =>
    show (visitImportFrom az rp lineno module names level).folders = az.folders ∧
      (visitImportFrom az rp lineno module names level).modules.map Prod.fst =
        az.modules.map Prod.fst ∧
      (∀ p ∈ (visitImportFrom az rp lineno module names level).files,
        ∃ q ∈ az.files, FileShapeEq p q)
    obtain ⟨h1, h2, h3⟩ := visitImportFrom_hierarchy az rp lineno module names level
    exact ⟨h1, by rw [h2], by rw [h3]; exact fun p hp => ⟨p, hp, rfl, rfl, rfl, rfl⟩⟩
  | exprStmt e => exact ⟨rfl, rfl, fun p hp => ⟨p, hp, rfl, rfl, rfl, rfl⟩⟩
  | classDef lineno nm bases body =>
    show (visitStmtList _ rp (some nm) body).folders = _ ∧ _
    obtain ⟨h1, h2, h3⟩ := visitStmtList_hierarchy_shape _ rp (some nm) body
    exact ⟨h1, h2, h3⟩
  | funcDef lineno nm args body decorator_list returns =>
    show (visitStmtList (visitFuncDef az rp cc lineno nm args body decorator_list returns)
      rp cc body).folders = _ ∧ _
    obtain ⟨h1, h2, h3⟩ := visitStmtList_hierarchy_shape
      (visitFuncDef az rp cc lineno nm args body decorator_list returns) rp cc body
    refine ⟨h1.trans (visitFuncDef_folders ..), h2.trans (visitFuncDef_modules_keys ..), ?_⟩
    intro p hp
    obtain ⟨q, hq, e1, e2, e3, e4⟩ := h3 p hp
    obtain ⟨q', hq', f1, f2, f3, f4⟩ := visitFuncDef_files_shape az rp cc lineno nm args body
      decorator_list returns hq
    exact ⟨q', hq', e1.trans f1, e2.trans f2, e3.trans f3, e4.trans f4⟩

theorem visitStmtList_hierarchy_shape (az : Analyzer) (rp : String) (cc : Option String)
    (ss : List Stmt) :
    (visitStmtList az rp cc ss).folders = az.folders ∧
    (visitStmtList az rp cc ss).modules.map Prod.fst = az.modules.map Prod.fst ∧
    (∀ p ∈ (visitStmtList az rp cc ss).files, ∃ q ∈ az.files, FileShapeEq p q) := by
  cases ss with
  | nil => exact ⟨rfl, rfl, fun p hp => ⟨p, hp, rfl, rfl, rfl, rfl⟩⟩
  | cons s ss =>
    show (visitStmtList (visitStmt az rp cc s) rp cc ss).folders = _ ∧ _
    obtain ⟨h1, h2, h3⟩ := visitStmtList_hierarchy_shape (visitStmt az rp cc s) rp cc ss
    obtain ⟨g1, g2, g3⟩ := visitStmt_hierarchy_shape az rp cc s
    refine ⟨h1.trans g1, h2.trans g2, ?_⟩
    intro p hp
    obtain ⟨q, hq, e1, e2, e3, e4⟩ := h3 p hp
    obtain ⟨q', hq', f1, f2, f3, f4⟩ := g3 q hq
    exact ⟨q', hq', e1.trans f1, e2.trans f2, e3.trans f3, e4.trans f4⟩
end

/-- Every file record is correctly tagged: a source file carries
`module = some (module name)` which (when truthy) is registered, a
non-source file carries `module = None`. -/
def FilesModulesInv (az : Analyzer) : Prop :=
  ∀ p ∈ az.files,
    (p.2.is_python = true → p.2.module = some (getModuleName p.1) ∧
      (getModuleName p.1 ≠ "" → getModuleName p.1 ∈ az.modules.map Prod.fst)) ∧
    (p.2.is_python = false → p.2.module = none)

theorem register_FilesModulesInv {az : Analyzer} (p : String) (h : FilesModulesInv az) :
    FilesModulesInv (registerFileInHierarchy az p) := by
  intro q hq
  rw [register_files] at hq
  split at hq
  · obtain ⟨h1, h2⟩ := h q hq
    exact ⟨fun hpy => ⟨(h1 hpy).1, fun hm => register_modules_keys_grow az p ((h1 hpy).2 hm)⟩, h2⟩
  · rcases List.mem_append.1 hq with hq' | hq'
    · obtain ⟨h1, h2⟩ := h q hq'
      exact ⟨fun hpy => ⟨(h1 hpy).1, fun hm => register_modules_keys_grow az p ((h1 hpy).2 hm)⟩,
        h2⟩
    · simp only [List.mem_singleton] at hq'
      subst hq'
      constructor
      · intro hpy
        unfold mkFileRec at hpy ⊢
        dsimp only at hpy ⊢
        simp only [decide_eq_true_eq] at hpy
        refine ⟨by rw [if_pos hpy], ?_⟩
        intro hm
        exact register_modules_key_new az p hpy hm
      · intro hnpy
        unfold mkFileRec at hnpy ⊢
        dsimp only at hnpy ⊢
        simp only [decide_eq_false_iff_not] at hnpy
        rw [if_neg hnpy]

theorem visitStmtList_FilesModulesInv {az : Analyzer} (rp : String) (cc : Option String)
    (ss : List Stmt) (h : FilesModulesInv az) :
    FilesModulesInv (visitStmtList az rp cc ss) := by
  obtain ⟨h1, h2, h3⟩ := visitStmtList_hierarchy_shape az rp cc ss
  intro p hp
  obtain ⟨q, hq, e1, e2, e3, e4⟩ := h3 p hp
  obtain ⟨g1, g2⟩ := h q hq
  constructor
  · intro hpy
    rw [e3] at hpy
    obtain ⟨ga, gb⟩ := g1 hpy
    refine ⟨by rw [e2, e1]; exact ga, ?_⟩
    intro hm
    rw [h2, e1]
    exact gb (by rw [← e1]; exact hm)
  · intro hnpy
    rw [e3] at hnpy
    rw [e2]
    exact g2 hnpy

theorem analyzeFile_FilesModulesInv {az : Analyzer} (p : String) (t : Option (List Stmt))
    (h : FilesModulesInv az) : FilesModulesInv (analyzeFile az p t) := by
  cases t with
  | none => exact h
  | some tree =>
    exact visitStmtList_FilesModulesInv p none tree (register_FilesModulesInv p h)

theorem analyze_FilesModulesInv (root : List FSEntry) (rules : List Rule)
    (parse : String → Option (List Stmt)) :
    FilesModulesInv (analyze root rules parse) := by
  unfold analyze
  dsimp only
  have hreg : ∀ (paths : List String) (az : Analyzer), FilesModulesInv az →
      FilesModulesInv (paths.foldl registerFileInHierarchy az) := by
    intro paths
    induction paths with
    | nil => intro az h; exact h
    | cons q qs ih =>
      intro az h
      exact ih _ (register_FilesModulesInv q h)
  have hext : ∀ (pyfiles : List String) (az : Analyzer), FilesModulesInv az →
      FilesModulesInv (pyfiles.foldl (fun a q => analyzeFile a q (parse q)) az) := by
    intro pyfiles
    induction pyfiles with
    | nil => intro az h; exact h
    | cons q qs ih =>
      intro az h
      exact ih _ (analyzeFile_FilesModulesInv q (parse q) h)
  have hinit : FilesModulesInv initAnalyzer := by
    intro p hp
    simp [initAnalyzer] at hp
  exact hext _ _ (hreg _ _ hinit)

theorem defines_edge_mem (az : Analyzer) {p : String × FileRec} (hp : p ∈ az.files) :
    mkEdge ("file::" ++ p.1) ("module::" ++ strOfOptStr p.2.module) "defines"
      "file_defines_module" ∈ (getGraphData az).edges := by
  unfold getGraphData
  dsimp only
  have hmem : mkEdge ("file::" ++ p.1) ("module::" ++ strOfOptStr p.2.module) "defines"
      "file_defines_module" ∈ az.files.map (fun e =>
        mkEdge ("file::" ++ e.1) ("module::" ++ strOfOptStr e.2.module) "defines"
          "file_defines_module") := List.mem_map.2 ⟨p, hp, rfl⟩
  simp only [List.mem_append]
  tauto

theorem module_node_mem (az : Analyzer) {k : String} (hk : k ∈ az.modules.map Prod.fst) :
    ∃ n ∈ (getGraphData az).nodes, n.nodeId = "module::" ++ k := by
  obtain ⟨e, he, hke⟩ := List.mem_map.1 hk
  refine ⟨GNode.moduleNode ("module::" ++ e.1) ((pySplit e.1 '.').getLastD "") e.1 e.2.file
      e.2.folder e.2.functions.length e.2.classes.length, ?_, by rw [hke]; rfl⟩
  unfold getGraphData
  dsimp only
  have hmem : GNode.moduleNode ("module::" ++ e.1) ((pySplit e.1 '.').getLastD "") e.1 e.2.file
      e.2.folder e.2.functions.length e.2.classes.length ∈ (sortByKey az.modules).map (fun e =>
        GNode.moduleNode ("module::" ++ e.1) ((pySplit e.1 '.').getLastD "") e.1 e.2.file
          e.2.folder e.2.functions.length e.2.classes.length) :=
    List.mem_map.2 ⟨e, (mem_sortByKey e az.modules).2 he, rfl⟩
  simp only [List.mem_append]
  tauto

/-- C5 counterexample: a project containing the single non-source file
`README.md` gets a `defines` edge from its file node to the dangling
target `module::None`, which is not the id of any node — so a non-source
file does emit a `defines` edge, and its target names no module node. -/
theorem C5_counterexample :
    (mkEdge "file::README.md" "module::None" "defines" "file_defines_module")
        ∈ (getGraphData readmeAz).edges ∧
    ∀ n ∈ (getGraphData readmeAz).nodes, n.nodeId ≠ "module::None" := by
  constructor
  · decide
  · decide

/-- C5 (amended): `get_graph_data` emits one file → module `defines` edge
for EVERY tracked file record, source or not.  For a non-source file the
record's module is `None`, so the edge's target is the literal
`module::None`; for a source file whose module name is truthy, the target
names a module that exists as a module node. -/
theorem C5_defines_edges_for_every_file :
    (∀ (az : Analyzer), ∀ p ∈ az.files,
        mkEdge ("file::" ++ p.1) ("module::" ++ strOfOptStr p.2.module) "defines"
          "file_defines_module" ∈ (getGraphData az).edges) ∧
    (∀ (root : List FSEntry) (rules : List Rule) (parse : String → Option (List Stmt)),
        ∀ p ∈ (analyze root rules parse).files,
          (p.2.is_python = false →
            mkEdge ("file::" ++ p.1) "module::None" "defines" "file_defines_module"
              ∈ (getGraphData (analyze root rules parse)).edges) ∧
          (p.2.is_python = true → getModuleName p.1 ≠ "" →
            ∃ n ∈ (getGraphData (analyze root rules parse)).nodes,
              n.nodeId = "module::" ++ strOfOptStr p.2.module)) := by
  refine ⟨fun az p hp => defines_edge_mem az hp, ?_⟩
  intro root rules parse p hp
  have hinv := analyze_FilesModulesInv root rules parse p hp
  constructor
  · intro hnpy
    have hmod := hinv.2 hnpy
    have := defines_edge_mem (analyze root rules parse) hp
    rw [hmod] at this
    exact this
  · intro hpy hm
    obtain ⟨hmod, hmem⟩ := hinv.1 hpy
    rw [hmod]
    exact module_node_mem _ (hmem hm)

/-- Witness for the amended C5: on the README-only project the file's
record is non-source and its `defines` edge goes to `module::None`. -/
theorem C5_witness :
    mkEdge "file::README.md" "module::None" "defines" "file_defines_module"
      ∈ (getGraphData readmeAz).edges := by
  have hp : ("README.md", mkFileRec "README.md") ∈ readmeAz.files := by decide
  have h := (C5_defines_edges_for_every_file.2 [.file "README.md"] [] (fun _ => none)
    ("README.md", mkFileRec "README.md") hp).1 (by decide)
  exact h

/-! # Call-graph resolution lemmas (shared by C1 and C4) -/

theorem keys_map_keyfix {α : Type} {h : String × α → String × α}
    (hk : ∀ e, (h e).1 = e.1) (m : List (String × α)) :
    (m.map h).map Prod.fst = m.map Prod.fst := by
  induction m with
  | nil => rfl
  | cons e es ih => simp [hk, ih]

theorem lookupA_iteUpd {α : Type} (m : List (String × α)) (k : String)
    (P : String × α → Prop) [DecidablePred P] (g : String × α → α) :
    lookupA (m.map (fun e => if P e then (e.1, g e) else e)) k =
      (entryA m k).map (fun e => if P e then g e else e.2) := by
  induction m with
  | nil => rfl
  | cons e es ih =>
    by_cases hP : P e <;> by_cases hek : e.1 = k <;>
      simp [lookupA, entryA, hP, hek, ih]

theorem keys_linkSite (acc : List (String × FunctionInfo)) (caller caller_file c : String) :
    (linkSite acc caller caller_file c).map Prod.fst = acc.map Prod.fst := by
  unfold linkSite
  split
  all_goals refine keys_map_keyfix (fun e => ?_) acc
  all_goals dsimp only
  all_goals split
  all_goals rfl

theorem isSome_lookupA_linkSite (acc : List (String × FunctionInfo))
    (caller caller_file c k : String) :
    ((lookupA (linkSite acc caller caller_file c) k).isSome = true ↔
      (lookupA acc k).isSome = true) := by
  rw [lookupA_isSome_iff, lookupA_isSome_iff, keys_linkSite]

/-- `called_by` sets only grow while everything else is stable, expressed
through lookups. -/
def CBGrow (m m' : List (String × FunctionInfo)) : Prop :=
  ∀ k fi, lookupA m k = some fi → ∃ fi', lookupA m' k = some fi' ∧
    fi'.name = fi.name ∧ fi'.file_path = fi.file_path ∧ fi'.calls = fi.calls ∧
    ∀ x ∈ fi.called_by, x ∈ fi'.called_by

theorem CBGrow_refl (m : List (String × FunctionInfo)) : CBGrow m m :=
  fun _ fi h => ⟨fi, h, rfl, rfl, rfl, fun _ hx => hx⟩

theorem CBGrow_trans {m₁ m₂ m₃ : List (String × FunctionInfo)}
    (h₁ : CBGrow m₁ m₂) (h₂ : CBGrow m₂ m₃) : CBGrow m₁ m₃ := by
  intro k fi h
  obtain ⟨fi', h', e1, e2, e3, e4⟩ := h₁ k fi h
  obtain ⟨fi'', h'', f1, f2, f3, f4⟩ := h₂ k fi' h'
  exact ⟨fi'', h'', f1.trans e1, f2.trans e2, f3.trans e3, fun x hx => f4 x (e4 x hx)⟩

/-- The two `linkSite` branches written as conditional updates of the
looked-up entry. -/
theorem lookupA_linkSite (acc : List (String × FunctionInfo))
    (caller caller_file c k : String) :
    lookupA (linkSite acc caller caller_file c) k =
      (if (lookupA acc c).isSome then
        (entryA acc k).map (fun e => if e.1 = c then addCalledBy caller e.2 else e.2)
       else
        (entryA acc k).map (fun e =>
          if (e.2.file_path = caller_file && e.2.name = keySuffix c) = true then
            addCalledBy caller e.2
          else e.2)) := by
  unfold linkSite
  split
  · exact lookupA_iteUpd acc k (fun e => e.1 = c) (fun e => addCalledBy caller e.2)
  · exact lookupA_iteUpd acc k
      (fun e => (e.2.file_path = caller_file && e.2.name = keySuffix c) = true)
      (fun e => addCalledBy caller e.2)

theorem CBGrow_linkSite (acc : List (String × FunctionInfo))
    (caller caller_file c : String) : CBGrow acc (linkSite acc caller caller_file c) := by
  intro k fi h
  rw [lookupA_linkSite]
  have he : ∃ e, entryA acc k = some e ∧ e.2 = fi := by
    rw [lookupA_eq_entryA] at h
    cases hE : entryA acc k with
    | none => rw [hE] at h; simp at h
    | some e => rw [hE] at h; simp at h; exact ⟨e, rfl, h⟩
  obtain ⟨e, hE, hev⟩ := he
  split
  · rw [hE]
    dsimp only [Option.map_some']
    split
    · exact ⟨_, rfl, by rw [← hev]; rfl, by rw [← hev]; rfl, by rw [← hev]; rfl,
        fun x hx => mem_insertNew.2 (Or.inr (by rw [← hev] at hx; exact hx))⟩
    · exact ⟨_, rfl, by rw [hev], by rw [hev], by rw [hev], fun x hx => by rw [← hev] at hx; exact hx⟩
  · rw [hE]
    dsimp only [Option.map_some']
    split
    · exact ⟨_, rfl, by rw [← hev]; rfl, by rw [← hev]; rfl, by rw [← hev]; rfl,
        fun x hx => mem_insertNew.2 (Or.inr (by rw [← hev] at hx; exact hx))⟩
    · exact ⟨_, rfl, by rw [hev], by rw [hev], by rw [hev], fun x hx => by rw [← hev] at hx; exact hx⟩

/-- Exact-match resolution: the entry keyed by the call key itself gains
the caller. -/
theorem linkSite_exact_trigger {acc : List (String × FunctionInfo)}
    {caller caller_file c : String} (h : (lookupA acc c).isSome = true) :
    ∃ fi', lookupA (linkSite acc caller caller_file c) c = some fi' ∧
      caller ∈ fi'.called_by := by
  have hEx : ∃ e, entryA acc c = some e := by
    rw [lookupA_eq_entryA] at h
    cases hE : entryA acc c with
    | none => rw [hE] at h; simp at h
    | some e => exact ⟨e, rfl⟩
  obtain ⟨e, hE⟩ := hEx
  rw [lookupA_linkSite, if_pos h, hE]
  dsimp only [Option.map_some']
  rw [if_pos (entryA_key hE)]
  exact ⟨_, rfl, self_mem_insertNew caller _⟩

/-- Exact-match resolution touches no other entry. -/
theorem linkSite_exact_only {acc : List (String × FunctionInfo)}
    {caller caller_file c : String} (h : (lookupA acc c).isSome = true)
    (k : String) (hk : k ≠ c) :
    lookupA (linkSite acc caller caller_file c) k = lookupA acc k := by
  rw [lookupA_linkSite, if_pos h, lookupA_eq_entryA]
  cases hE : entryA acc k with
  | none => rfl
  | some e =>
    dsimp only [Option.map_some']
    rw [if_neg (by rw [entryA_key hE]; exact hk)]

/-- Fallback resolution: on exact-match failure, every same-file function
whose bare name equals the key's suffix gains the caller. -/
theorem linkSite_fallback_trigger {acc : List (String × FunctionInfo)}
    {caller caller_file c kB : String} {fiB : FunctionInfo}
    (h : (lookupA acc c).isSome = false) (hB : lookupA acc kB = some fiB)
    (hf : fiB.file_path = caller_file) (hn : fiB.name = keySuffix c) :
    ∃ fi', lookupA (linkSite acc caller caller_file c) kB = some fi' ∧
      caller ∈ fi'.called_by := by
  rw [lookupA_linkSite, if_neg (by rw [h]; simp)]
  rw [lookupA_eq_entryA] at hB
  cases hE : entryA acc kB with
  | none => rw [hE] at hB; simp at hB
  | some e =>
    rw [hE] at hB
    simp only [Option.map_some', Option.some.injEq] at hB
    dsimp only [Option.map_some']
    rw [if_pos (by rw [hB, hf, hn]; simp)]
    exact ⟨_, rfl, self_mem_insertNew caller _⟩

theorem keys_linkSiteFold (caller caller_file : String) :
    ∀ (cs : List String) (acc : List (String × FunctionInfo)),
      (cs.foldl (fun a c => linkSite a caller caller_file c) acc).map Prod.fst =
        acc.map Prod.fst := by
  intro cs
  induction cs with
  | nil => intro acc; rfl
  | cons c cs ih => intro acc; rw [List.foldl_cons, ih, keys_linkSite]

theorem CBGrow_linkSiteFold (caller caller_file : String) :
    ∀ (cs : List String) (acc : List (String × FunctionInfo)),
      CBGrow acc (cs.foldl (fun a c => linkSite a caller caller_file c) acc) := by
  intro cs
  induction cs with
  | nil => intro acc; exact CBGrow_refl acc
  | cons c cs ih =>
    intro acc
    rw [List.foldl_cons]
    exact CBGrow_trans (CBGrow_linkSite acc caller caller_file c) (ih _)

theorem linkSiteFold_exact_trigger (caller caller_file : String) :
    ∀ (cs : List String) (acc : List (String × FunctionInfo)) (c : String),
      c ∈ cs → (lookupA acc c).isSome = true →
      ∃ fi', lookupA (cs.foldl (fun a c => linkSite a caller caller_file c) acc) c = some fi' ∧
        caller ∈ fi'.called_by := by
  intro cs
  induction cs with
  | nil => intro acc c hc; exact absurd hc (List.not_mem_nil c)
  | cons c' cs ih =>
    intro acc c hc hsome
    rw [List.foldl_cons]
    rcases List.mem_cons.1 hc with rfl | hc'
    · obtain ⟨fi', h', hmem⟩ := @linkSite_exact_trigger _ caller caller_file _ hsome
      obtain ⟨fi'', h'', _, _, _, hgrow⟩ := CBGrow_linkSiteFold caller caller_file cs _ c fi' h'
      exact ⟨fi'', h'', hgrow _ hmem⟩
    · exact ih _ c hc' ((isSome_lookupA_linkSite acc caller caller_file c' c).2 hsome)

theorem linkSiteFold_fallback_trigger (caller caller_file : String) :
    ∀ (cs : List String) (acc : List (String × FunctionInfo)) (c kB : String)
      (fiB : FunctionInfo),
      c ∈ cs → (lookupA acc c).isSome = false → lookupA acc kB = some fiB →
      fiB.file_path = caller_file → fiB.name = keySuffix c →
      ∃ fi', lookupA (cs.foldl (fun a c => linkSite a caller caller_file c) acc) kB = some fi' ∧
        caller ∈ fi'.called_by := by
  intro cs
  induction cs with
  | nil => intro acc c kB fiB hc; exact absurd hc (List.not_mem_nil c)
  | cons c' cs ih =>
    intro acc c kB fiB hc hnone hB hf hn
    rw [List.foldl_cons]
    rcases List.mem_cons.1 hc with rfl | hc'
    · obtain ⟨fi', h', hmem⟩ := @linkSite_fallback_trigger _ caller caller_file _ _ _ hnone hB hf hn
      obtain ⟨fi'', h'', _, _, _, hgrow⟩ := CBGrow_linkSiteFold caller caller_file cs _ kB fi' h'
      exact ⟨fi'', h'', hgrow _ hmem⟩
    · obtain ⟨fiB', hB', hname, hfile, _, _⟩ :=
        CBGrow_linkSite acc caller caller_file c' kB fiB hB
      refine ih _ c kB fiB' hc' ?_ hB' (by rw [hfile]; exact hf) (by rw [hname]; exact hn)
      rw [Bool.eq_false_iff]
      intro hT
      rw [isSome_lookupA_linkSite] at hT
      rw [hT] at hnone
      exact absurd hnone (by simp)

theorem keys_callerFold :
    ∀ (todo : List (String × FunctionInfo)) (acc : List (String × FunctionInfo)),
      (todo.foldl (fun acc e => e.2.calls.foldl
        (fun a c => linkSite a e.1 e.2.file_path c) acc) acc).map Prod.fst =
      acc.map Prod.fst := by
  intro todo
  induction todo with
  | nil => intro acc; rfl
  | cons e todo ih => intro acc; rw [List.foldl_cons, ih, keys_linkSiteFold]

theorem CBGrow_callerFold :
    ∀ (todo : List (String × FunctionInfo)) (acc : List (String × FunctionInfo)),
      CBGrow acc (todo.foldl (fun acc e => e.2.calls.foldl
        (fun a c => linkSite a e.1 e.2.file_path c) acc) acc) := by
  intro todo
  induction todo with
  | nil => intro acc; exact CBGrow_refl acc
  | cons e todo ih =>
    intro acc
    rw [List.foldl_cons]
    exact CBGrow_trans (CBGrow_linkSiteFold e.1 e.2.file_path e.2.calls acc) (ih _)

theorem isSome_lookupA_linkSiteFold (caller caller_file : String) (cs : List String)
    (acc : List (String × FunctionInfo)) (k : String) :
    ((lookupA (cs.foldl (fun a c => linkSite a caller caller_file c) acc) k).isSome = true ↔
      (lookupA acc k).isSome = true) := by
  rw [lookupA_isSome_iff, lookupA_isSome_iff, keys_linkSiteFold]

theorem callerFold_exact_trigger :
    ∀ (todo : List (String × FunctionInfo)) (acc : List (String × FunctionInfo))
      (kA : String) (fiA : FunctionInfo) (c : String),
      (kA, fiA) ∈ todo → c ∈ fiA.calls → (lookupA acc c).isSome = true →
      ∃ fi', lookupA (todo.foldl (fun acc e => e.2.calls.foldl
          (fun a c => linkSite a e.1 e.2.file_path c) acc) acc) c = some fi' ∧
        kA ∈ fi'.called_by := by
  intro todo
  induction todo with
  | nil => intro acc kA fiA c hA; exact absurd hA (List.not_mem_nil _)
  | cons e todo ih =>
    intro acc kA fiA c hA hc hsome
    rw [List.foldl_cons]
    rcases List.mem_cons.1 hA with he | hA'
    · have he1 : e.1 = kA := by rw [← he]
      have he2 : e.2 = fiA := by rw [← he]
      obtain ⟨fi', h', hmem⟩ := linkSiteFold_exact_trigger e.1 e.2.file_path e.2.calls acc c
        (by rw [he2]; exact hc) hsome
      obtain ⟨fi'', h'', _, _, _, hgrow⟩ := CBGrow_callerFold todo _ c fi' h'
      exact ⟨fi'', h'', hgrow _ (by rw [← he1]; exact hmem)⟩
    · exact ih _ kA fiA c hA' hc
        ((isSome_lookupA_linkSiteFold e.1 e.2.file_path e.2.calls acc c).2 hsome)

theorem callerFold_fallback_trigger :
    ∀ (todo : List (String × FunctionInfo)) (acc : List (String × FunctionInfo))
      (kA : String) (fiA : FunctionInfo) (c kB : String) (fiB : FunctionInfo),
      (kA, fiA) ∈ todo → c ∈ fiA.calls → (lookupA acc c).isSome = false →
      lookupA acc kB = some fiB → fiB.file_path = fiA.file_path → fiB.name = keySuffix c →
      ∃ fi', lookupA (todo.foldl (fun acc e => e.2.calls.foldl
          (fun a c => linkSite a e.1 e.2.file_path c) acc) acc) kB = some fi' ∧
        kA ∈ fi'.called_by := by
  intro todo
  induction todo with
  | nil => intro acc kA fiA c kB fiB hA; exact absurd hA (List.not_mem_nil _)
  | cons e todo ih =>
    intro acc kA fiA c kB fiB hA hc hnone hB hf hn
    rw [List.foldl_cons]
    rcases List.mem_cons.1 hA with he | hA'
    · have he1 : e.1 = kA := by rw [← he]
      have he2 : e.2 = fiA := by rw [← he]
      obtain ⟨fi', h', hmem⟩ := linkSiteFold_fallback_trigger e.1 e.2.file_path e.2.calls acc c
        kB fiB (by rw [he2]; exact hc) hnone hB (by rw [he2]; exact hf) hn
      obtain ⟨fi'', h'', _, _, _, hgrow⟩ := CBGrow_callerFold todo _ kB fi' h'
      exact ⟨fi'', h'', hgrow _ (by rw [← he1]; exact hmem)⟩
    · obtain ⟨fiB', hB', hname, hfile, _, _⟩ :=
        CBGrow_linkSiteFold e.1 e.2.file_path e.2.calls acc kB fiB hB
      refine ih _ kA fiA c kB fiB' hA' hc ?_ hB' (by rw [hfile]; exact hf)
        (by rw [hname]; exact hn)
      rw [Bool.eq_false_iff]
      intro hT
      rw [isSome_lookupA_linkSiteFold] at hT
      rw [hT] at hnone
      exact absurd hnone (by simp)

theorem keys_buildCallGraph (fns : List (String × FunctionInfo)) :
    (buildCallGraph fns).map Prod.fst = fns.map Prod.fst :=
  keys_callerFold fns fns

/-- Exact-match linking through the whole `_build_call_graph` pass: if a
recorded call key of some function names an existing function key, that
function's caller set gains the caller. -/
theorem buildCallGraph_exact_link {fns : List (String × FunctionInfo)} {kA : String}
    {fiA : FunctionInfo} {c : String} (hA : (kA, fiA) ∈ fns) (hc : c ∈ fiA.calls)
    (hsome : (lookupA fns c).isSome = true) :
    ∃ fi', lookupA (buildCallGraph fns) c = some fi' ∧ kA ∈ fi'.called_by :=
  callerFold_exact_trigger fns fns kA fiA c hA hc hsome

/-- Fallback linking through the whole `_build_call_graph` pass: when the
call key matches no function exactly, every function of the caller's file
whose bare name equals the key's suffix gains the caller. -/
theorem buildCallGraph_fallback_link {fns : List (String × FunctionInfo)} {kA : String}
    {fiA : FunctionInfo} {c kB : String} {fiB : FunctionInfo} (hA : (kA, fiA) ∈ fns)
    (hc : c ∈ fiA.calls) (hnone : (lookupA fns c).isSome = false)
    (hB : lookupA fns kB = some fiB) (hf : fiB.file_path = fiA.file_path)
    (hn : fiB.name = keySuffix c) :
    ∃ fi', lookupA (buildCallGraph fns) kB = some fi' ∧ kA ∈ fi'.called_by :=
  callerFold_fallback_trigger fns fns kA fiA c kB fiB hA hc hnone hB hf hn

/-! # C1 — `calls` versus `called_by` edges -/

theorem called_by_edge_mem (az : Analyzer) {k caller : String} {fi : FunctionInfo}
    (hentry : (k, fi) ∈ az.functions) (hcaller : caller ∈ fi.called_by) :
    mkEdge caller k "called_by" "dependency" ∈ (getGraphData az).edges := by
  unfold getGraphData
  dsimp only
  have hmem : mkEdge caller k "called_by" "dependency" ∈ az.functions.flatMap (fun e =>
      e.2.called_by.map (fun caller => mkEdge caller e.1 "called_by" "dependency")) :=
    List.mem_flatMap.2 ⟨(k, fi), hentry, List.mem_map.2 ⟨caller, hcaller, rfl⟩⟩
  simp only [List.mem_append]
  tauto

/-- A `calls`-typed edge can only come from the call-edge block: it links
a recorded function entry to one of its call keys that names an existing
function. -/
theorem calls_edge_decomp {az : Analyzer} {e : GEdge}
    (h : e ∈ (getGraphData az).edges) (hty : e.etype = "calls") :
    ∃ en ∈ az.functions, ∃ c ∈ en.2.calls, (lookupA az.functions c).isSome = true ∧
      e = mkEdge en.1 c "calls" "function_call" := by
  unfold getGraphData at h
  dsimp only at h
  simp only [List.append_assoc, List.mem_append] at h
  rcases h with h | h | h | h | h | h | h
  · rcases List.mem_filterMap.1 h with ⟨a, _, hsome⟩
    repeat' split at hsome
    all_goals first
      | (simp only [Option.some.injEq] at hsome; subst hsome; simp [mkEdge] at hty)
      | exact absurd hsome (by simp)
  · rcases List.mem_map.1 h with ⟨a, _, heq⟩
    subst heq
    simp [mkEdge] at hty
  · rcases List.mem_flatMap.1 h with ⟨me, _, h2⟩
    rcases List.mem_map.1 h2 with ⟨fn, _, heq⟩
    subst heq
    simp [mkEdge] at hty
  · rcases List.mem_filterMap.1 h with ⟨a, _, hsome⟩
    repeat' split at hsome
    all_goals first
      | (simp only [Option.some.injEq] at hsome; subst hsome; simp [mkEdge] at hty)
      | exact absurd hsome (by simp)
  · rcases List.mem_flatMap.1 h with ⟨en, hen, h2⟩
    rcases List.mem_filterMap.1 h2 with ⟨c, hc, hsome⟩
    split at hsome
    · simp only [Option.some.injEq] at hsome
      subst hsome
      exact ⟨en, hen, c, hc, by assumption, rfl⟩
    · simp at hsome
  · rcases List.mem_flatMap.1 h with ⟨en, _, h2⟩
    rcases List.mem_map.1 h2 with ⟨caller, _, heq⟩
    subst heq
    simp [mkEdge] at hty
  · rcases List.mem_flatMap.1 h with ⟨fe, _, h2⟩
    rcases List.mem_flatMap.1 h2 with ⟨info, _, h3⟩
    repeat' split at h3
    all_goals try exact absurd h3 (List.not_mem_nil e)
    all_goals simp only [List.mem_cons, List.not_mem_nil, or_false] at h3
    all_goals rcases h3 with h3 | h3 <;> (subst h3; simp at hty)

theorem calls_edge_has_called_by_aux (az : Analyzer) (fns0 : List (String × FunctionInfo))
    (heq : az.functions = buildCallGraph fns0) :
    ∀ e ∈ (getGraphData az).edges, e.etype = "calls" →
      ∃ e' ∈ (getGraphData az).edges, e'.etype = "called_by" ∧ e'.source = e.source ∧
        e'.target = e.target := by
  intro e he hty
  obtain ⟨en, hen, c, hc, hsome, hE⟩ := calls_edge_decomp he hty
  obtain ⟨q, hq, hk, _, _, hcalls⟩ := mem_buildCallGraph (heq ▸ hen)
  have hsome0 : (lookupA fns0 c).isSome = true := by
    rw [lookupA_isSome_iff] at hsome ⊢
    rw [← keys_buildCallGraph, ← heq]
    exact hsome
  have hq' : (q.1, q.2) ∈ fns0 := by
    have : (q.1, q.2) = q := rfl
    rw [this]
    exact hq
  obtain ⟨fi', hlook, hmem⟩ := buildCallGraph_exact_link hq' (hcalls ▸ hc) hsome0
  have hlook' : lookupA az.functions c = some fi' := by rw [heq]; exact hlook
  refine ⟨mkEdge q.1 c "called_by" "dependency",
    called_by_edge_mem az (lookupA_mem hlook') hmem, rfl, ?_, ?_⟩
  · rw [hE, ← hk]; rfl
  · rw [hE]; rfl

def selfArgs : PyArgs := ⟨[], [⟨"self", none⟩], none, [], [], none, []⟩

def noArgs : PyArgs := ⟨[], [], none, [], [], none, []⟩

def c1Tree : List Stmt :=
  [.classDef 1 "Baz" [] [.funcDef 2 "qux" selfArgs [.exprStmt (.numConst 0)] [] none],
   .funcDef 4 "foo" noArgs [.exprStmt (.call (.attr (.name "obj") "qux") [])] [] none,
   .funcDef 6 "bar" noArgs [.exprStmt (.call (.name "foo") [])] [] none]

def c1Az : Analyzer := analyze [.file "m.py"] []
  (fun p => if p = "m.py" then some c1Tree else none)

set_option maxHeartbeats 4000000 in
/-- C1 counterexample: in the project where `bar` calls `foo()` and `foo`
calls `obj.qux()` (resolved by the same-file fallback onto `Baz.qux`),
the graph has the `calls` edge `bar → foo` but no `called_by` edge
`foo → bar` — the `called_by` edge runs in the SAME direction as the
call, not inverse — and it has a `called_by` edge `foo → Baz.qux` with no
`calls` edge targeting `Baz.qux` at all, so neither direction of the
claimed symmetry holds. -/
theorem C1_counterexample :
    (mkEdge "m.py::bar" "m.py::foo" "calls" "function_call")
        ∈ (getGraphData c1Az).edges ∧
    (∀ e ∈ (getGraphData c1Az).edges,
      ¬(e.etype = "called_by" ∧ e.source = "m.py::foo" ∧ e.target = "m.py::bar")) ∧
    (mkEdge "m.py::foo" "m.py::Baz.qux" "called_by" "dependency")
        ∈ (getGraphData c1Az).edges ∧
    (∀ e ∈ (getGraphData c1Az).edges, ¬(e.etype = "calls" ∧ e.target = "m.py::Baz.qux")) := by
  refine ⟨?_, ?_, ?_, ?_⟩ <;> decide

/-- C1 (amended): for every `calls` edge `(A → B)` of the analyzed graph
there is a `called_by` edge with the SAME source `A` and target `B`
(recording "B is called by A" as an edge in the call's own direction, not
an inverse edge from `B` to `A`); `called_by` edges produced by the
same-file name fallback have no matching `calls` edge, so the converse
fails. -/
theorem C1_calls_edges_have_matching_called_by :
    ∀ (root : List FSEntry) (rules : List Rule) (parse : String → Option (List Stmt)),
      ∀ e ∈ (getGraphData (analyze root rules parse)).edges, e.etype = "calls" →
        ∃ e' ∈ (getGraphData (analyze root rules parse)).edges,
          e'.etype = "called_by" ∧ e'.source = e.source ∧ e'.target = e.target := by
  intro root rules parse
  unfold analyze
  dsimp only
  exact calls_edge_has_called_by_aux _ _ rfl

set_option maxHeartbeats 4000000 in
/-- Witness for the amended C1: the `calls` edge `bar → foo` of the
example project has its same-direction `called_by` companion. -/
theorem C1_witness :
    ∃ e' ∈ (getGraphData c1Az).edges, e'.etype = "called_by" ∧
      e'.source = "m.py::bar" ∧ e'.target = "m.py::foo" :=
  C1_calls_edges_have_matching_called_by [.file "m.py"] []
    (fun p => if p = "m.py" then some c1Tree else none)
    (mkEdge "m.py::bar" "m.py::foo" "calls" "function_call") (by decide) (by decide)

/-! # C4 — call-site keys and exact-then-fallback resolution -/

def c4Tree : List Stmt :=
  [.classDef 1 "Baz" []
    [.funcDef 2 "foo" selfArgs [.exprStmt (.call (.attr (.name "self") "bar") [])] [] none,
     .funcDef 4 "bar" selfArgs [.exprStmt (.numConst 0)] [] none]]

def c4Az : Analyzer := analyze [.file "m.py"] []
  (fun p => if p = "m.py" then some c4Tree else none)

def c4FooInfo : FunctionInfo :=
  ⟨"foo", "m.py", 2, ["self"], none, none, ["m.py::Baz.bar"], [], [], true, some "Baz"⟩

def c4BarInfo : FunctionInfo :=
  ⟨"bar", "m.py", 4, ["self"], none, none, [], ["m.py::Baz.foo"], [], true, some "Baz"⟩

set_option maxHeartbeats 4000000 in
/-- C4: call-site resolution tries an exact key match first — linking
only the exactly-named function and touching no other entry — and only on
failure falls back to linking every function of the caller's file whose
bare name equals the call key's suffix; each established link adds the
caller's key to the callee's caller set.  Concretely, `self.bar()` inside
`Baz.foo` in `m.py` records the callee key `m.py::Baz.bar`, and after
analysis `m.py::Baz.bar`'s caller set contains `m.py::Baz.foo`. -/
theorem C4_call_resolution_exact_then_fallback :
    (∀ (acc : List (String × FunctionInfo)) (caller caller_file c : String),
        (lookupA acc c).isSome = true →
        (∃ fi', lookupA (linkSite acc caller caller_file c) c = some fi' ∧
          caller ∈ fi'.called_by) ∧
        (∀ k, k ≠ c → lookupA (linkSite acc caller caller_file c) k = lookupA acc k)) ∧
    (∀ (acc : List (String × FunctionInfo)) (caller caller_file c kB : String)
        (fiB : FunctionInfo),
        (lookupA acc c).isSome = false → lookupA acc kB = some fiB →
        fiB.file_path = caller_file → fiB.name = keySuffix c →
        ∃ fi', lookupA (linkSite acc caller caller_file c) kB = some fi' ∧
          caller ∈ fi'.called_by) ∧
    (∀ (fns : List (String × FunctionInfo)) (kA : String) (fiA : FunctionInfo) (c : String),
        (kA, fiA) ∈ fns → c ∈ fiA.calls → (lookupA fns c).isSome = true →
        ∃ fi', lookupA (buildCallGraph fns) c = some fi' ∧ kA ∈ fi'.called_by) ∧
    (∀ (fns : List (String × FunctionInfo)) (kA : String) (fiA : FunctionInfo)
        (c kB : String) (fiB : FunctionInfo),
        (kA, fiA) ∈ fns → c ∈ fiA.calls → (lookupA fns c).isSome = false →
        lookupA fns kB = some fiB → fiB.file_path = fiA.file_path → fiB.name = keySuffix c →
        ∃ fi', lookupA (buildCallGraph fns) kB = some fi' ∧ kA ∈ fi'.called_by) ∧
    callsOfExpr (some "Baz") "m.py" (.call (.attr (.name "self") "bar") []) =
      ["m.py::Baz.bar"] ∧
    lookupA c4Az.functions "m.py::Baz.foo" = some c4FooInfo ∧
    lookupA c4Az.functions "m.py::Baz.bar" = some c4BarInfo := by
  refine ⟨?_, ?_, ?_, ?_, by decide, by decide, by decide⟩
  · intro acc caller caller_file c h
    exact ⟨linkSite_exact_trigger h, fun k hk => linkSite_exact_only h k hk⟩
  · intro acc caller caller_file c kB fiB hnone hB hf hn
    exact linkSite_fallback_trigger hnone hB hf hn
  · intro fns kA fiA c hA hc hsome
    exact buildCallGraph_exact_link hA hc hsome
  · intro fns kA fiA c kB fiB hA hc hnone hB hf hn
    exact buildCallGraph_fallback_link hA hc hnone hB hf hn

def c4SmallF : FunctionInfo := ⟨"f", "m.py", 1, [], none, none, ["m.py::g"], [], [], false, none⟩

def c4SmallG : FunctionInfo := ⟨"g", "m.py", 3, [], none, none, [], [], [], false, none⟩

def c4SmallFns : List (String × FunctionInfo) :=
  [("m.py::f", c4SmallF), ("m.py::g", c4SmallG)]

/-- Witness for C4: instantiating the exact-match clause on a two-entry
function map where `f` calls `g` by its exact key. -/
theorem C4_witness :
    ∃ fi', lookupA (buildCallGraph c4SmallFns) "m.py::g" = some fi' ∧
      "m.py::f" ∈ fi'.called_by :=
  C4_call_resolution_exact_then_fallback.2.2.1 c4SmallFns "m.py::f" c4SmallF "m.py::g"
    (by decide) (by decide) (by decide)

/-! # Split/join roundtrips and the folder-hierarchy invariants (C9) -/

theorem pySplitAux_ne_nil (sep : Char) (l : List Char) : pySplitAux sep l ≠ [] := by
  cases l with
  | nil => simp [pySplitAux]
  | cons c cs =>
    unfold pySplitAux
    split
    · simp
    · split <;> simp

theorem pyJoinChars_cons_cons (sep c : Char) (h : List Char) (t : List (List Char)) :
    pyJoinChars sep ((c :: h) :: t) = c :: pyJoinChars sep (h :: t) := by
  cases t with
  | nil => rfl
  | cons l ls => rfl

theorem pyJoinChars_nil_cons (sep : Char) (h : List Char) (t : List (List Char)) :
    pyJoinChars sep ([] :: h :: t) = sep :: pyJoinChars sep (h :: t) := rfl

theorem pyJoinChars_pySplitAux (sep : Char) (l : List Char) :
    pyJoinChars sep (pySplitAux sep l) = l := by
  induction l with
  | nil => rfl
  | cons c cs ih =>
    rw [pySplitAux]
    cases hs : pySplitAux sep cs with
    | nil => exact absurd hs (pySplitAux_ne_nil sep cs)
    | cons a t =>
      rw [hs] at ih
      dsimp only
      by_cases hc : c = sep
      · rw [if_pos hc, pyJoinChars_nil_cons, ih, hc]
      · rw [if_neg hc, pyJoinChars_cons_cons, ih]

theorem pySplitAux_sep_free (sep : Char) (l : List Char) :
    ∀ seg ∈ pySplitAux sep l, sep ∉ seg := by
  induction l with
  | nil =>
    intro seg hseg
    simp only [pySplitAux, List.mem_singleton] at hseg
    subst hseg
    simp
  | cons c cs ih =>
    intro seg hseg
    rw [pySplitAux] at hseg
    cases hs : pySplitAux sep cs with
    | nil => exact absurd hs (pySplitAux_ne_nil sep cs)
    | cons a t =>
      rw [hs] at ih hseg
      dsimp only at hseg
      by_cases hc : c = sep
      · rw [if_pos hc] at hseg
        rcases List.mem_cons.1 hseg with h | h
        · subst h; simp
        · exact ih seg h
      · rw [if_neg hc] at hseg
        rcases List.mem_cons.1 hseg with h | h
        · subst h
          intro hmem
          rcases List.mem_cons.1 hmem with h' | h'
          · exact hc h'.symm
          · exact ih a (List.mem_cons_self a t) h'
        · exact ih seg (List.mem_cons_of_mem a h)

theorem pySplitAux_no_sep (sep : Char) (l : List Char) (h : sep ∉ l) :
    pySplitAux sep l = [l] := by
  induction l with
  | nil => rfl
  | cons c cs ih =>
    have hc : ¬ c = sep := fun e => h (by rw [e]; exact List.mem_cons_self sep cs)
    have hcs : sep ∉ cs := fun m => h (List.mem_cons_of_mem c m)
    rw [pySplitAux, ih hcs]
    dsimp only
    rw [if_neg hc]

theorem pySplitAux_append_sep (sep : Char) (l rest : List Char) (h : sep ∉ l) :
    pySplitAux sep (l ++ sep :: rest) = l :: pySplitAux sep rest := by
  induction l with
  | nil =>
    show pySplitAux sep (sep :: rest) = [] :: pySplitAux sep rest
    rw [pySplitAux]
    cases hs : pySplitAux sep rest with
    | nil => exact absurd hs (pySplitAux_ne_nil sep rest)
    | cons a t => simp
  | cons c cs ih =>
    have hc : ¬ c = sep := fun e => h (by rw [e]; exact List.mem_cons_self sep _)
    have hcs : sep ∉ cs := fun m => h (List.mem_cons_of_mem c m)
    show pySplitAux sep (c :: (cs ++ sep :: rest)) = _
    rw [pySplitAux, ih hcs]
    dsimp only
    rw [if_neg hc]

theorem pySplitAux_pyJoinChars (sep : Char) :
    ∀ ls : List (List Char), ls ≠ [] → (∀ seg ∈ ls, sep ∉ seg) →
      pySplitAux sep (pyJoinChars sep ls) = ls
  | [], hne, _ => absurd rfl hne
  | [l], _, hfree => by
      show pySplitAux sep l = [l]
      exact pySplitAux_no_sep sep l (hfree l (List.mem_singleton_self l))
  | l :: l2 :: ls, _, hfree => by
      show pySplitAux sep (l ++ sep :: pyJoinChars sep (l2 :: ls)) = _
      rw [pySplitAux_append_sep sep l _ (hfree l (List.mem_cons_self _ _)),
        pySplitAux_pyJoinChars sep (l2 :: ls) (by simp)
          (fun seg hs => hfree seg (List.mem_cons_of_mem l hs))]

theorem toList_mk (l : List Char) : (String.mk l).toList = l := rfl

theorem mk_toList (s : String) : String.mk s.toList = s := rfl

theorem pyJoin_pySplit (sep : Char) (s : String) : pyJoin sep (pySplit s sep) = s := by
  unfold pyJoin pySplit
  rw [List.map_map]
  have hcomp : (String.toList ∘ fun l => String.mk l) = id := funext fun l => rfl
  rw [hcomp, List.map_id, pyJoinChars_pySplitAux]
  exact mk_toList s

theorem pySplit_pyJoin (sep : Char) (parts : List String) (hne : parts ≠ [])
    (hfree : ∀ s ∈ parts, sep ∉ s.toList) : pySplit (pyJoin sep parts) sep = parts := by
  unfold pySplit pyJoin
  rw [toList_mk, pySplitAux_pyJoinChars sep (parts.map String.toList)
    (by simpa using hne)
    (by
      intro seg hseg
      rw [List.mem_map] at hseg
      obtain ⟨s, hs, rfl⟩ := hseg
      exact hfree s hs),
    List.map_map]
  have hcomp : ((fun l => String.mk l) ∘ String.toList) = id := funext fun s => rfl
  rw [hcomp, List.map_id]

theorem pySplit_ne_nil (s : String) (sep : Char) : pySplit s sep ≠ [] := by
  unfold pySplit
  intro h
  exact pySplitAux_ne_nil sep s.toList (by simpa using h)

theorem pySplit_sep_free (s : String) (sep : Char) :
    ∀ seg ∈ pySplit s sep, sep ∉ seg.toList := by
  intro seg hseg
  unfold pySplit at hseg
  rw [List.mem_map] at hseg
  obtain ⟨l, hl, rfl⟩ := hseg
  rw [toList_mk]
  exact pySplitAux_sep_free sep s.toList l hl

theorem ancestorAt_zero (parts : List String) : ancestorAt parts 0 = "" := rfl

theorem ancestorAt_pos (parts : List String) (j : Nat) (h : 0 < j) :
    ancestorAt parts j = pyJoin '/' (parts.take j) := by
  unfold ancestorAt
  rw [if_pos h]

theorem ancestorAt_full (parts : List String) :
    ancestorAt parts parts.length = pyJoin '/' (parts.take parts.length) := by
  cases parts with
  | nil => rfl
  | cons a t => exact ancestorAt_pos _ _ (Nat.succ_pos _)

/-- Stripping the last segment of the `j`-th ancestor prefix yields the
`(j-1)`-th ancestor prefix, for slash-free segments. -/
theorem parentFolder_ancestorAt (parts : List String)
    (hfree : ∀ s ∈ parts, ('/' : Char) ∉ s.toList) (j : Nat) (h1 : 1 ≤ j)
    (hj : j ≤ parts.length) :
    parentFolder (ancestorAt parts j) = ancestorAt parts (j - 1) := by
  have hlen : (parts.take j).length = j := by
    rw [List.length_take]
    exact Nat.min_eq_left hj
  have hne : parts.take j ≠ [] := by
    intro h
    rw [h] at hlen
    simp at hlen
    omega
  have hsplit : pySplit (pyJoin '/' (parts.take j)) '/' = parts.take j :=
    pySplit_pyJoin '/' (parts.take j) hne
      (fun s hs => hfree s (List.take_subset j parts hs))
  rw [ancestorAt_pos parts j (by omega)]
  unfold parentFolder
  dsimp only
  rw [hsplit, hlen]
  by_cases h2 : j > 1
  · rw [if_pos h2]
    have hdl : (parts.take j).dropLast = parts.take (j - 1) := by
      rw [List.dropLast_eq_take, hlen, List.take_take]
      congr 1
      omega
    rw [hdl, ancestorAt_pos parts (j - 1) (by omega)]
  · have hj1 : j = 1 := by omega
    rw [if_neg h2]
    subst hj1
    rfl

/-- Folder `a` lists `b` among its subfolders. -/
def SubMem (fs : List (String × FolderRec)) (a b : String) : Prop :=
  ∃ fr, lookupA fs a = some fr ∧ b ∈ fr.subfolders

theorem lookupA_append_some {α : Type} {m : List (String × α)} {k : String} {v : α}
    (x : List (String × α)) (h : lookupA m k = some v) : lookupA (m ++ x) k = some v := by
  induction m with
  | nil => simp [lookupA] at h
  | cons e es ih =>
    by_cases he : e.1 = k
    · simp only [lookupA, if_pos he] at h
      simp only [List.cons_append, lookupA, if_pos he]
      exact h
    · simp only [lookupA, if_neg he] at h
      simp only [List.cons_append, lookupA, if_neg he]
      exact ih h

theorem lookupA_append_new {α : Type} {m : List (String × α)} {k : String} (v : α)
    (h : lookupA m k = none) : lookupA (m ++ [(k, v)]) k = some v := by
  induction m with
  | nil => simp [lookupA]
  | cons e es ih =>
    by_cases he : e.1 = k
    · simp [lookupA, if_pos he] at h
    · simp only [lookupA, if_neg he] at h
      simp only [List.cons_append, lookupA, if_neg he]
      exact ih h

theorem lookupA_modifyKey_self {α : Type} (m : List (String × α)) (k : String) (f : α → α) :
    lookupA (modifyKey m k f) k = (lookupA m k).map f := by
  unfold modifyKey
  rw [lookupA_iteUpd m k (fun e => e.1 = k) (fun e => f e.2), lookupA_eq_entryA]
  cases he : entryA m k with
  | none => rfl
  | some e => simp [entryA_key he]

theorem lookupA_modifyKey_other {α : Type} (m : List (String × α)) {k k' : String}
    (hne : k' ≠ k) (f : α → α) :
    lookupA (modifyKey m k f) k' = lookupA m k' := by
  unfold modifyKey
  rw [lookupA_iteUpd m k' (fun e => e.1 = k) (fun e => f e.2), lookupA_eq_entryA]
  cases he : entryA m k' with
  | none => rfl
  | some e =>
    have hk' := entryA_key he
    have hnk : ¬ e.1 = k := by
      rw [hk']
      exact hne
    simp [hnk]

theorem SubMem_append {fs : List (String × FolderRec)} {a b : String}
    (x : List (String × FolderRec)) (h : SubMem fs a b) : SubMem (fs ++ x) a b := by
  obtain ⟨fr, h1, h2⟩ := h
  exact ⟨fr, lookupA_append_some x h1, h2⟩

theorem SubMem_modifyKey_insert {fs : List (String × FolderRec)} {a b : String} (k c : String)
    (h : SubMem fs a b) :
    SubMem (modifyKey fs k
      (fun fr => { fr with subfolders := insertNew c fr.subfolders })) a b := by
  obtain ⟨fr, h1, h2⟩ := h
  by_cases hak : a = k
  · subst hak
    refine ⟨_, by rw [lookupA_modifyKey_self, h1]; rfl, ?_⟩
    exact mem_insertNew.2 (Or.inr h2)
  · exact ⟨fr, by rw [lookupA_modifyKey_other fs hak, h1], h2⟩

theorem SubMem_hierarchyStep {parts : List String} {fs : List (String × FolderRec)}
    {a b : String} (i : Nat) (h : SubMem fs a b) :
    SubMem (hierarchyStep parts fs i) a b := by
  unfold hierarchyStep
  dsimp only
  split
  · split
    · exact SubMem_modifyKey_insert _ _ h
    · exact SubMem_modifyKey_insert _ _ (SubMem_append _ h)
  · split
    · exact h
    · exact SubMem_append _ h

theorem keys_hierarchyStep (parts : List String) (fs : List (String × FolderRec)) (i : Nat)
    {k : String} (h : k ∈ fs.map Prod.fst) :
    k ∈ (hierarchyStep parts fs i).map Prod.fst := by
  unfold hierarchyStep
  dsimp only
  split
  · rw [keys_modifyKey]
    split
    · exact h
    · rw [List.map_append]
      exact List.mem_append.2 (Or.inl h)
  · split
    · exact h
    · rw [List.map_append]
      exact List.mem_append.2 (Or.inl h)

theorem parent_mem_hierarchyStep (parts : List String) (fs : List (String × FolderRec))
    (i : Nat) : ancestorAt parts i ∈ (hierarchyStep parts fs i).map Prod.fst := by
  unfold hierarchyStep
  dsimp only
  split
  · rw [keys_modifyKey]
    split
    · next hc => exact (lookupA_isSome_iff fs _).1 hc
    · rw [List.map_append]
      exact List.mem_append.2 (Or.inr (by simp))
  · split
    · next hc => exact (lookupA_isSome_iff fs _).1 hc
    · rw [List.map_append]
      exact List.mem_append.2 (Or.inr (by simp))

theorem hierarchyStep_links (parts : List String) (fs : List (String × FolderRec)) (i : Nat)
    (h : i < parts.length) :
    SubMem (hierarchyStep parts fs i) (ancestorAt parts i) (ancestorAt parts (i + 1)) := by
  rw [ancestorAt_pos parts (i + 1) (Nat.succ_pos i)]
  unfold hierarchyStep
  dsimp only
  rw [if_pos h]
  split
  · next hc =>
    obtain ⟨fr, hfr⟩ := Option.isSome_iff_exists.1 hc
    refine ⟨{ fr with subfolders := insertNew (pyJoin '/' (parts.take (i + 1))) fr.subfolders },
      ?_, ?_⟩
    · rw [lookupA_modifyKey_self, hfr]
      rfl
    · exact self_mem_insertNew _ _
  · next hc =>
    have hn : lookupA fs (ancestorAt parts i) = none := Option.not_isSome_iff_eq_none.1 hc
    refine ⟨⟨ancestorAt parts i, [], insertNew (pyJoin '/' (parts.take (i + 1))) []⟩, ?_, ?_⟩
    · rw [lookupA_modifyKey_self, lookupA_append_new _ hn]
      rfl
    · show pyJoin '/' (parts.take (i + 1)) ∈ insertNew (pyJoin '/' (parts.take (i + 1))) []
      exact self_mem_insertNew _ _

theorem SubMem_stepFold (parts : List String) (l : List Nat) :
    ∀ fs a b, SubMem fs a b → SubMem (l.foldl (hierarchyStep parts) fs) a b := by
  induction l with
  | nil => exact fun fs a b h => h
  | cons i t ih => exact fun fs a b h => ih _ a b (SubMem_hierarchyStep i h)

theorem keys_stepFold (parts : List String) (l : List Nat) :
    ∀ fs k, k ∈ fs.map Prod.fst → k ∈ (l.foldl (hierarchyStep parts) fs).map Prod.fst := by
  induction l with
  | nil => exact fun fs k h => h
  | cons i t ih => exact fun fs k h => ih _ k (keys_hierarchyStep parts fs i h)

theorem stepFold_adds (parts : List String) (l : List Nat) :
    ∀ fs i, i ∈ l → ancestorAt parts i ∈ (l.foldl (hierarchyStep parts) fs).map Prod.fst := by
  induction l with
  | nil =>
    intro fs i h
    simp at h
  | cons j t ih =>
    intro fs i h
    rcases List.mem_cons.1 h with h | h
    · subst h
      exact keys_stepFold parts t _ _ (parent_mem_hierarchyStep parts fs i)
    · exact ih _ i h

theorem stepFold_links (parts : List String) (l : List Nat) :
    ∀ fs i, i ∈ l → i < parts.length →
      SubMem (l.foldl (hierarchyStep parts) fs) (ancestorAt parts i) (ancestorAt parts (i + 1)) := by
  induction l with
  | nil =>
    intro fs i h
    simp at h
  | cons j t ih =>
    intro fs i h hlt
    rcases List.mem_cons.1 h with h | h
    · subst h
      exact SubMem_stepFold parts t _ _ _ (hierarchyStep_links parts fs i hlt)
    · exact ih _ i h hlt

theorem keys_hierarchyStep_sub (parts : List String) (fs : List (String × FolderRec)) (i : Nat)
    {k : String} (h : k ∈ (hierarchyStep parts fs i).map Prod.fst) :
    k ∈ fs.map Prod.fst ∨ k = ancestorAt parts i := by
  unfold hierarchyStep at h
  dsimp only at h
  split at h
  · rw [keys_modifyKey] at h
    split at h
    · exact Or.inl h
    · rw [List.map_append] at h
      rcases List.mem_append.1 h with h | h
      · exact Or.inl h
      · simp at h
        exact Or.inr h
  · split at h
    · exact Or.inl h
    · rw [List.map_append] at h
      rcases List.mem_append.1 h with h | h
      · exact Or.inl h
      · simp at h
        exact Or.inr h

theorem keys_stepFold_sub (parts : List String) (l : List Nat) :
    ∀ fs k, k ∈ (l.foldl (hierarchyStep parts) fs).map Prod.fst →
      k ∈ fs.map Prod.fst ∨ ∃ i ∈ l, k = ancestorAt parts i := by
  induction l with
  | nil => exact fun fs k h => Or.inl h
  | cons j t ih =>
    intro fs k h
    rcases ih _ k h with h | ⟨i, hi, he⟩
    · rcases keys_hierarchyStep_sub parts fs j h with h | h
      · exact Or.inl h
      · exact Or.inr ⟨j, List.mem_cons_self j t, h⟩
    · exact Or.inr ⟨i, List.mem_cons_of_mem j hi, he⟩

/-- The pre-loop folder operations of `_register_file_in_hierarchy`:
ensure the file's own folder exists, and (for a newly seen file) list the
file in it. -/
def folderOps (fs : List (String × FolderRec)) (fp rp : String) (b : Bool) :
    List (String × FolderRec) :=
  let fs := if (lookupA fs fp).isSome then fs else fs ++ [(fp, mkFolder fp)]
  if b then modifyKey fs fp (fun fr => { fr with files := fr.files ++ [rp] }) else fs

/-- The folder-map effect of `_register_file_in_hierarchy`, isolated:
the pre-loop operations followed by the parent-synthesis loop. -/
def registerFolders (fs : List (String × FolderRec)) (fp rp : String) (b : Bool) :
    List (String × FolderRec) :=
  if fp ≠ "" then
    (List.range ((pySplit fp '/').length + 1)).foldl (hierarchyStep (pySplit fp '/'))
      (folderOps fs fp rp b)
  else folderOps fs fp rp b

theorem register_folders (az : Analyzer) (p : String) :
    (registerFileInHierarchy az p).folders =
      registerFolders az.folders (getFolderPath p) p (!(lookupA az.files p).isSome) := by
  unfold registerFileInHierarchy registerFolders folderOps
  dsimp only
  repeat' split
  all_goals simp_all

theorem keys_folderOps {fs : List (String × FolderRec)} (fp rp : String) (b : Bool)
    {k : String} (h : k ∈ fs.map Prod.fst) : k ∈ (folderOps fs fp rp b).map Prod.fst := by
  unfold folderOps
  dsimp only
  split
  · rw [keys_modifyKey]
    split
    · exact h
    · rw [List.map_append]
      exact List.mem_append.2 (Or.inl h)
  · split
    · exact h
    · rw [List.map_append]
      exact List.mem_append.2 (Or.inl h)

theorem fp_mem_folderOps (fs : List (String × FolderRec)) (fp rp : String) (b : Bool) :
    fp ∈ (folderOps fs fp rp b).map Prod.fst := by
  unfold folderOps
  dsimp only
  split
  · rw [keys_modifyKey]
    split
    · next hc => exact (lookupA_isSome_iff fs fp).1 hc
    · rw [List.map_append]
      exact List.mem_append.2 (Or.inr (by simp))
  · split
    · next hc => exact (lookupA_isSome_iff fs fp).1 hc
    · rw [List.map_append]
      exact List.mem_append.2 (Or.inr (by simp))

theorem SubMem_modifyKey_files {fs : List (String × FolderRec)} {a b : String} (k rp : String)
    (h : SubMem fs a b) :
    SubMem (modifyKey fs k (fun fr => { fr with files := fr.files ++ [rp] })) a b := by
  obtain ⟨fr, h1, h2⟩ := h
  by_cases hak : a = k
  · subst hak
    refine ⟨{ fr with files := fr.files ++ [rp] }, ?_, ?_⟩
    · rw [lookupA_modifyKey_self, h1]
      rfl
    · exact h2
  · exact ⟨fr, by rw [lookupA_modifyKey_other fs hak, h1], h2⟩

theorem SubMem_folderOps {fs : List (String × FolderRec)} {a b : String} (fp rp : String)
    (bb : Bool) (h : SubMem fs a b) : SubMem (folderOps fs fp rp bb) a b := by
  unfold folderOps
  dsimp only
  split
  · split
    · exact SubMem_modifyKey_files _ _ h
    · exact SubMem_modifyKey_files _ _ (SubMem_append _ h)
  · split
    · exact h
    · exact SubMem_append _ h

theorem keys_folderOps_sub {fs : List (String × FolderRec)} {fp rp : String} {b : Bool}
    {k : String} (h : k ∈ (folderOps fs fp rp b).map Prod.fst) :
    k ∈ fs.map Prod.fst ∨ k = fp := by
  unfold folderOps at h
  dsimp only at h
  split at h
  · rw [keys_modifyKey] at h
    split at h
    · exact Or.inl h
    · rw [List.map_append] at h
      rcases List.mem_append.1 h with h | h
      · exact Or.inl h
      · simp at h
        exact Or.inr h
  · split at h
    · exact Or.inl h
    · rw [List.map_append] at h
      rcases List.mem_append.1 h with h | h
      · exact Or.inl h
      · simp at h
        exact Or.inr h

theorem fp_mem_registerFolders (fs : List (String × FolderRec)) (fp rp : String) (b : Bool) :
    fp ∈ (registerFolders fs fp rp b).map Prod.fst := by
  unfold registerFolders
  split
  · exact keys_stepFold _ _ _ _ (fp_mem_folderOps fs fp rp b)
  · exact fp_mem_folderOps fs fp rp b

theorem keys_registerFolders {fs : List (String × FolderRec)} (fp rp : String) (b : Bool)
    {k : String} (h : k ∈ fs.map Prod.fst) :
    k ∈ (registerFolders fs fp rp b).map Prod.fst := by
  unfold registerFolders
  split
  · exact keys_stepFold _ _ _ _ (keys_folderOps fp rp b h)
  · exact keys_folderOps fp rp b h

theorem SubMem_registerFolders {fs : List (String × FolderRec)} {a b : String} (fp rp : String)
    (bb : Bool) (h : SubMem fs a b) : SubMem (registerFolders fs fp rp bb) a b := by
  unfold registerFolders
  split
  · exact SubMem_stepFold _ _ _ _ _ (SubMem_folderOps fp rp bb h)
  · exact SubMem_folderOps fp rp bb h

theorem ancestor_mem_registerFolders (fs : List (String × FolderRec)) (fp rp : String)
    (b : Bool) (j : Nat) (hj : j ≤ (pySplit fp '/').length) :
    ancestorAt (pySplit fp '/') j ∈ (registerFolders fs fp rp b).map Prod.fst := by
  unfold registerFolders
  split
  · exact stepFold_adds _ _ _ j (List.mem_range.2 (by omega))
  · next hfp =>
    have hfp' : fp = "" := by simpa using hfp
    subst hfp'
    have hlen : (pySplit "" '/').length = 1 := rfl
    rw [hlen] at hj
    have hanc : ancestorAt (pySplit "" '/') j = "" := by
      match j, hj with
      | 0, _ => rfl
      | 1, _ => rfl
    rw [hanc]
    exact fp_mem_folderOps fs "" rp b

theorem registerFolders_links (fs : List (String × FolderRec)) (fp rp : String) (b : Bool)
    (hfp : fp ≠ "") (j : Nat) (h1 : 1 ≤ j) (hj : j ≤ (pySplit fp '/').length) :
    SubMem (registerFolders fs fp rp b) (ancestorAt (pySplit fp '/') (j - 1))
      (ancestorAt (pySplit fp '/') j) := by
  unfold registerFolders
  rw [if_pos hfp]
  have hlink := stepFold_links (pySplit fp '/')
    (List.range ((pySplit fp '/').length + 1)) (folderOps fs fp rp b) (j - 1)
    (List.mem_range.2 (by omega)) (by omega)
  have hjj : j - 1 + 1 = j := by omega
  rw [hjj] at hlink
  exact hlink

theorem keys_registerFolders_sub {fs : List (String × FolderRec)} {fp rp : String} {b : Bool}
    {k : String} (h : k ∈ (registerFolders fs fp rp b).map Prod.fst) :
    k ∈ fs.map Prod.fst ∨ k = fp ∨
      (fp ≠ "" ∧ ∃ j ≤ (pySplit fp '/').length, k = ancestorAt (pySplit fp '/') j) := by
  unfold registerFolders at h
  split at h
  · next hfp =>
    rcases keys_stepFold_sub _ _ _ _ h with h | ⟨i, hi, he⟩
    · rcases keys_folderOps_sub h with h | h
      · exact Or.inl h
      · exact Or.inr (Or.inl h)
    · exact Or.inr (Or.inr ⟨hfp, i, Nat.lt_succ_iff.1 (List.mem_range.1 hi), he⟩)
  · rcases keys_folderOps_sub h with h | h
    · exact Or.inl h
    · exact Or.inr (Or.inl h)

/-- C9 invariant, folder side: every non-root folder key is recorded in
its parent folder's subfolder set (and the parent is hence itself a
folder key). -/
def FolderLinked (fs : List (String × FolderRec)) : Prop :=
  ∀ k ∈ fs.map Prod.fst, k ≠ "" → SubMem fs (parentFolder k) k

/-- C9 invariant, file side: every tracked file's `folder` attribute is
`getFolderPath` of its path, and every ancestor prefix of that folder —
from the root `""` up to the folder itself — exists as a folder key. -/
def FilesFoldersInv (az : Analyzer) : Prop :=
  ∀ e ∈ az.files,
    e.2.folder = getFolderPath e.1 ∧
    ∀ j ≤ (pySplit e.2.folder '/').length,
      ancestorAt (pySplit e.2.folder '/') j ∈ az.folders.map Prod.fst

theorem FolderLinked_registerFolders {fs : List (String × FolderRec)} (fp rp : String)
    (b : Bool) (h : FolderLinked fs) : FolderLinked (registerFolders fs fp rp b) := by
  intro k hk hne
  rcases keys_registerFolders_sub hk with hmem | hkfp | ⟨hfp, j, hj, he⟩
  · exact SubMem_registerFolders fp rp b (h k hmem hne)
  · subst hkfp
    have hnn : 1 ≤ (pySplit k '/').length := by
      cases hq : pySplit k '/' with
      | nil => exact absurd hq (pySplit_ne_nil k '/')
      | cons a t => simp [hq]
    have hk_anc : ancestorAt (pySplit k '/') (pySplit k '/').length = k := by
      rw [ancestorAt_full, List.take_length, pyJoin_pySplit]
    have hpf : parentFolder k = ancestorAt (pySplit k '/') ((pySplit k '/').length - 1) := by
      conv_lhs => rw [← hk_anc]
      exact parentFolder_ancestorAt (pySplit k '/') (pySplit_sep_free k '/') _ hnn le_rfl
    rw [hpf]
    have hlink := registerFolders_links fs k rp b hne (pySplit k '/').length hnn le_rfl
    rw [hk_anc] at hlink
    exact hlink
  · subst he
    have hj1 : 1 ≤ j := by
      rcases Nat.eq_zero_or_pos j with h0 | h0
      · subst h0
        exact absurd (ancestorAt_zero _) hne
      · exact h0
    rw [parentFolder_ancestorAt (pySplit fp '/') (pySplit_sep_free fp '/') j hj1 hj]
    exact registerFolders_links fs fp rp b hfp j hj1 hj

theorem register_FilesFoldersInv {az : Analyzer} (p : String)
    (h : FilesFoldersInv az) : FilesFoldersInv (registerFileInHierarchy az p) := by
  intro e he
  rw [register_files] at he
  have hfold : (registerFileInHierarchy az p).folders =
      registerFolders az.folders (getFolderPath p) p (!(lookupA az.files p).isSome) :=
    register_folders az p
  split at he
  · obtain ⟨h1, h2⟩ := h e he
    refine ⟨h1, fun j hj => ?_⟩
    rw [hfold]
    exact keys_registerFolders _ _ _ (h2 j hj)
  · rcases List.mem_append.1 he with he | he
    · obtain ⟨h1, h2⟩ := h e he
      refine ⟨h1, fun j hj => ?_⟩
      rw [hfold]
      exact keys_registerFolders _ _ _ (h2 j hj)
    · simp only [List.mem_singleton] at he
      subst he
      refine ⟨rfl, fun j hj => ?_⟩
      rw [hfold]
      exact ancestor_mem_registerFolders az.folders (getFolderPath p) p _ j hj

theorem register_FolderLinked {az : Analyzer} (p : String)
    (h : FolderLinked az.folders) :
    FolderLinked (registerFileInHierarchy az p).folders := by
  rw [register_folders]
  exact FolderLinked_registerFolders _ _ _ h

theorem visitStmtList_FilesFoldersInv {az : Analyzer} (rp : String) (cc : Option String)
    (ss : List Stmt) (h : FilesFoldersInv az) :
    FilesFoldersInv (visitStmtList az rp cc ss) := by
  obtain ⟨h1, h2, h3⟩ := visitStmtList_hierarchy_shape az rp cc ss
  intro e he
  obtain ⟨q, hq, e1, e2, e3, e4⟩ := h3 e he
  obtain ⟨g1, g2⟩ := h q hq
  refine ⟨by rw [e4, g1, e1], fun j hj => ?_⟩
  rw [h1]
  rw [e4] at hj ⊢
  exact g2 j hj

theorem visitStmtList_FolderLinked {az : Analyzer} (rp : String) (cc : Option String)
    (ss : List Stmt) (h : FolderLinked az.folders) :
    FolderLinked (visitStmtList az rp cc ss).folders := by
  rw [(visitStmtList_hierarchy_shape az rp cc ss).1]
  exact h

theorem analyzeFile_FilesFoldersInv {az : Analyzer} (p : String) (t : Option (List Stmt))
    (h : FilesFoldersInv az) : FilesFoldersInv (analyzeFile az p t) := by
  cases t with
  | none => exact h
  | some tree => exact visitStmtList_FilesFoldersInv p none tree (register_FilesFoldersInv p h)

theorem analyzeFile_FolderLinked {az : Analyzer} (p : String) (t : Option (List Stmt))
    (h : FolderLinked az.folders) : FolderLinked (analyzeFile az p t).folders := by
  cases t with
  | none => exact h
  | some tree => exact visitStmtList_FolderLinked p none tree (register_FolderLinked p h)

/-- Both folder-hierarchy invariants hold of the full pipeline. -/
theorem analyze_hierarchy_invariants (root : List FSEntry) (rules : List Rule)
    (parse : String → Option (List Stmt)) :
    FilesFoldersInv (analyze root rules parse) ∧
      FolderLinked (analyze root rules parse).folders := by
  unfold analyze
  dsimp only
  have hreg : ∀ (paths : List String) (az : Analyzer),
      FilesFoldersInv az ∧ FolderLinked az.folders →
      FilesFoldersInv (paths.foldl registerFileInHierarchy az) ∧
        FolderLinked (paths.foldl registerFileInHierarchy az).folders := by
    intro paths
    induction paths with
    | nil => exact fun az h => h
    | cons q qs ih =>
      intro az h
      exact ih _ ⟨register_FilesFoldersInv q h.1, register_FolderLinked q h.2⟩
  have hext : ∀ (pys : List String) (az : Analyzer),
      FilesFoldersInv az ∧ FolderLinked az.folders →
      FilesFoldersInv (pys.foldl (fun a q => analyzeFile a q (parse q)) az) ∧
        FolderLinked (pys.foldl (fun a q => analyzeFile a q (parse q)) az).folders := by
    intro pys
    induction pys with
    | nil => exact fun az h => h
    | cons q qs ih =>
      intro az h
      exact ih _ ⟨analyzeFile_FilesFoldersInv q (parse q) h.1,
        analyzeFile_FolderLinked q (parse q) h.2⟩
  have hinit : FilesFoldersInv initAnalyzer ∧ FolderLinked initAnalyzer.folders := by
    constructor
    · intro e he
      simp [initAnalyzer] at he
    · intro k hk
      simp [initAnalyzer] at hk
  exact hext _ _ (hreg _ _ hinit)

theorem folder_node_mem (az : Analyzer) {k : String} (hk : k ∈ az.folders.map Prod.fst)
    (hne : k ≠ "") : ∃ n ∈ (getGraphData az).nodes, n.nodeId = "folder::" ++ k := by
  obtain ⟨e, he, hke⟩ := List.mem_map.1 hk
  refine ⟨GNode.folderNode ("folder::" ++ e.1) (pathName e.1) e.1
      e.2.files.length e.2.subfolders.length, ?_, by rw [hke]; rfl⟩
  unfold getGraphData
  dsimp only
  have hne1 : e.1 ≠ "" := by
    rw [hke]
    exact hne
  have hmem : GNode.folderNode ("folder::" ++ e.1) (pathName e.1) e.1
      e.2.files.length e.2.subfolders.length ∈ (sortByKey az.folders).filterMap (fun e =>
        if e.1 ≠ "" then
          some (GNode.folderNode ("folder::" ++ e.1) (pathName e.1) e.1
            e.2.files.length e.2.subfolders.length)
        else none) :=
    List.mem_filterMap.2 ⟨e, (mem_sortByKey e az.folders).2 he, by rw [if_pos hne1]⟩
  simp only [List.mem_append]
  tauto

theorem pyReplaceChar_id (s : String) (a b : Char) (h : a ∉ s.toList) :
    pyReplaceChar s a b = s := by
  unfold pyReplaceChar
  have h1 : s.toList.map (fun c => if c = a then b else c) = s.toList.map id := by
    apply List.map_congr_left
    intro c hc
    have hca : ¬ c = a := fun e => h (e ▸ hc)
    simp [hca]
  rw [h1, List.map_id]
  exact mk_toList s

/-- For backslash-free paths the code's folder derivation agrees with the
spec's "longest strict path-prefix directory". -/
theorem getFolderPath_eq_dirnameSpec (p : String) (h : ('\\' : Char) ∉ p.toList) :
    getFolderPath p = dirnameSpec p := by
  unfold getFolderPath dirnameSpec
  rw [pyReplaceChar_id p '\\' '/' h]

def c9Tree : List FSEntry := [.dir "pkg" [.file "mod.py"]]

def c9Az : Analyzer := analyze c9Tree [] (fun _ => none)

/-- C9: after analysis, (i) every tracked file's `folder` attribute is the
stripped-last-segment prefix of its path, and every ancestor prefix of
that folder — from the root `""` up to the folder itself — exists as a
folder record; (ii) every non-root folder key is listed in its parent
folder's subfolder set, the parent being derived by dropping the last
path segment; (iii) every non-root file folder has a `folder::` node in
the graph output; and (iv) for backslash-free paths the code's folder
derivation coincides with the spec's "longest strict path-prefix
directory". -/
theorem C9_folder_hierarchy_invariants :
    ∀ (root : List FSEntry) (rules : List Rule) (parse : String → Option (List Stmt)),
      (∀ e ∈ (analyze root rules parse).files,
        e.2.folder = getFolderPath e.1 ∧
        (∀ j ≤ (pySplit e.2.folder '/').length,
          ancestorAt (pySplit e.2.folder '/') j ∈
            (analyze root rules parse).folders.map Prod.fst) ∧
        (e.2.folder ≠ "" → ∃ n ∈ (getGraphData (analyze root rules parse)).nodes,
          n.nodeId = "folder::" ++ e.2.folder)) ∧
      (∀ k ∈ (analyze root rules parse).folders.map Prod.fst, k ≠ "" →
        ∃ fr, lookupA (analyze root rules parse).folders (parentFolder k) = some fr ∧
          k ∈ fr.subfolders) ∧
      (∀ p : String, ('\\' : Char) ∉ p.toList → getFolderPath p = dirnameSpec p) := by
  intro root rules parse
  obtain ⟨hf, hl⟩ := analyze_hierarchy_invariants root rules parse
  refine ⟨?_, ?_, fun p hp => getFolderPath_eq_dirnameSpec p hp⟩
  · intro e he
    obtain ⟨h1, h2⟩ := hf e he
    refine ⟨h1, h2, fun hne => ?_⟩
    have hmem : e.2.folder ∈ (analyze root rules parse).folders.map Prod.fst := by
      have hanc := h2 (pySplit e.2.folder '/').length le_rfl
      rwa [ancestorAt_full, List.take_length, pyJoin_pySplit] at hanc
    exact folder_node_mem _ hmem hne
  · intro k hk hne
    exact hl k hk hne

/-- C9 witness: in the one-file project `pkg/mod.py`, the recorded file's
folder is `pkg`, which carries a `folder::pkg` graph node, and the
spec-side dirname agrees with the code on the concrete path. -/
theorem C9_witness :
    (('\\' : Char) ∉ "pkg/mod.py".toList ∧
      getFolderPath "pkg/mod.py" = dirnameSpec "pkg/mod.py") ∧
    (("pkg/mod.py", mkFileRec "pkg/mod.py") ∈ c9Az.files ∧
      (mkFileRec "pkg/mod.py").folder ≠ "" ∧
      ∃ n ∈ (getGraphData c9Az).nodes,
        n.nodeId = "folder::" ++ (mkFileRec "pkg/mod.py").folder) := by
  have hmem : ("pkg/mod.py", mkFileRec "pkg/mod.py") ∈ c9Az.files := by decide
  have hne : (mkFileRec "pkg/mod.py").folder ≠ "" := by decide
  refine ⟨⟨by decide,
    (C9_folder_hierarchy_invariants c9Tree [] (fun _ => none)).2.2 "pkg/mod.py" (by decide)⟩,
    hmem, hne,
    ((C9_folder_hierarchy_invariants c9Tree [] (fun _ => none)).1
      ("pkg/mod.py", mkFileRec "pkg/mod.py") hmem).2.2 hne⟩

end CodeAtlas
